import Mathlib

/-!
# Verification of the IKK code-based cryptosystem simulation

This file embeds the cryptosystem of Ivanov, Kabatiansky and Krouk (CBCrypto 2020)
as implemented in `ikk_simulation.py`: key generation, encryption, decryption and
the ciphertext-only attack.  The Python source delegates its exact linear algebra
over a finite field (row reduction, rank, pivots, right-kernel bases, inversion)
to its host computer-algebra system; those routines are not part of the repository
source, so they are modelled here from the specification's description of the
linear-algebra engine: a deterministic left-to-right Gaussian elimination producing
the reduced row-echelon form, its pivot columns, the rank as the number of pivots,
and kernel bases read off from the free columns.

All definitions are executable so that concrete instances can be checked by
evaluation; correctness properties are then proved against these definitions.
-/

namespace IKK

open Matrix

variable {F : Type*} [Field F] [DecidableEq F]
variable {m n p : ℕ}

/-! ## Elementary row operations

Row reduction is performed by accumulating an invertible row-transformation
matrix `E`; the working matrix is always `E * A`.  The three elementary
operations below act on the rows of `E`. -/

/-- Swap rows `r` and `i` of a matrix. -/
def rowSwap (r i : Fin m) (A : Matrix (Fin m) (Fin p) F) : Matrix (Fin m) (Fin p) F :=
  fun a => if a = r then A i else if a = i then A r else A a

/-- Multiply row `r` of a matrix by the scalar `c`. -/
def rowScale (r : Fin m) (c : F) (A : Matrix (Fin m) (Fin p) F) : Matrix (Fin m) (Fin p) F :=
  fun a => if a = r then c • A a else A a

/-- Subtract `f a` times row `r` from every row `a ≠ r`. -/
def rowElim (r : Fin m) (f : Fin m → F) (A : Matrix (Fin m) (Fin p) F) :
    Matrix (Fin m) (Fin p) F :=
  fun a => if a = r then A a else A a - f a • A r

theorem rowSwap_mul (r i : Fin m) (E : Matrix (Fin m) (Fin m) F)
    (A : Matrix (Fin m) (Fin p) F) :
    (rowSwap r i E) * A = rowSwap r i (E * A) := by
  funext a j
  simp only [rowSwap, Matrix.mul_apply]
  split_ifs <;> rfl

theorem rowScale_mul (r : Fin m) (c : F) (E : Matrix (Fin m) (Fin m) F)
    (A : Matrix (Fin m) (Fin p) F) :
    (rowScale r c E) * A = rowScale r c (E * A) := by
  funext a j
  by_cases h : a = r <;>
    simp [rowScale, Matrix.mul_apply, h, Finset.mul_sum, mul_assoc]

theorem rowElim_mul (r : Fin m) (f : Fin m → F) (E : Matrix (Fin m) (Fin m) F)
    (A : Matrix (Fin m) (Fin p) F) :
    (rowElim r f E) * A = rowElim r f (E * A) := by
  funext a j
  by_cases h : a = r <;>
    simp [rowElim, Matrix.mul_apply, h, sub_mul, Finset.sum_sub_distrib,
      Finset.mul_sum, mul_assoc]

theorem rowSwap_rowSwap (r i : Fin m) (A : Matrix (Fin m) (Fin p) F) :
    rowSwap r i (rowSwap r i A) = A := by
  funext a j
  simp only [rowSwap]
  split_ifs <;> simp_all

theorem rowScale_rowScale (r : Fin m) (c : F) (hc : c ≠ 0) (A : Matrix (Fin m) (Fin p) F) :
    rowScale r c⁻¹ (rowScale r c A) = A := by
  funext a j
  simp only [rowScale]
  split_ifs <;> simp [← mul_assoc, inv_mul_cancel₀ hc]

theorem rowScale_rowScale' (r : Fin m) (c : F) (hc : c ≠ 0) (A : Matrix (Fin m) (Fin p) F) :
    rowScale r c (rowScale r c⁻¹ A) = A := by
  funext a j
  simp only [rowScale]
  split_ifs <;> simp [← mul_assoc, mul_inv_cancel₀ hc]

theorem rowElim_rowElim (r : Fin m) (f : Fin m → F) (A : Matrix (Fin m) (Fin p) F) :
    rowElim r (-f) (rowElim r f A) = A := by
  funext a j
  simp only [rowElim]
  split_ifs with h <;> simp [h]

theorem rowElim_rowElim' (r : Fin m) (f : Fin m → F) (A : Matrix (Fin m) (Fin p) F) :
    rowElim r f (rowElim r (-f) A) = A := by
  funext a j
  simp only [rowElim]
  split_ifs with h <;> simp [h]

theorem isUnit_rowSwap (r i : Fin m) (E : Matrix (Fin m) (Fin m) F) (hE : IsUnit E) :
    IsUnit (rowSwap r i E) := by
  have h1 : rowSwap r i E = rowSwap r i (1 : Matrix (Fin m) (Fin m) F) * E := by
    rw [rowSwap_mul, Matrix.one_mul]
  rw [h1]
  refine IsUnit.mul ⟨⟨rowSwap r i 1, rowSwap r i 1, ?_, ?_⟩, rfl⟩ hE <;>
    rw [rowSwap_mul, Matrix.one_mul, rowSwap_rowSwap]

theorem isUnit_rowScale (r : Fin m) (c : F) (hc : c ≠ 0) (E : Matrix (Fin m) (Fin m) F)
    (hE : IsUnit E) : IsUnit (rowScale r c E) := by
  have h1 : rowScale r c E = rowScale r c (1 : Matrix (Fin m) (Fin m) F) * E := by
    rw [rowScale_mul, Matrix.one_mul]
  rw [h1]
  refine IsUnit.mul ⟨⟨rowScale r c 1, rowScale r c⁻¹ 1, ?_, ?_⟩, rfl⟩ hE
  · rw [rowScale_mul, Matrix.one_mul, rowScale_rowScale' r c hc]
  · rw [rowScale_mul, Matrix.one_mul, rowScale_rowScale r c hc]

theorem isUnit_rowElim (r : Fin m) (f : Fin m → F) (E : Matrix (Fin m) (Fin m) F)
    (hE : IsUnit E) : IsUnit (rowElim r f E) := by
  have h1 : rowElim r f E = rowElim r f (1 : Matrix (Fin m) (Fin m) F) * E := by
    rw [rowElim_mul, Matrix.one_mul]
  rw [h1]
  refine IsUnit.mul ⟨⟨rowElim r f 1, rowElim r (-f) 1, ?_, ?_⟩, rfl⟩ hE
  · rw [rowElim_mul, Matrix.one_mul, rowElim_rowElim']
  · rw [rowElim_mul, Matrix.one_mul, rowElim_rowElim]

/-! ## Row reduction

`rrefSteps A j` is the state of the elimination after the columns `0, …, j-1`
have been processed: the accumulated row transformation `E`, the number `r` of
pivots found so far, and the list `piv` of pivot column indices.  This models
the canonical left-to-right column scan of the engine's `rref`. -/

/-- State of the Gaussian elimination: accumulated invertible row transformation,
number of pivots found, and pivot column indices in scan order. -/
structure RState (m : ℕ) (F : Type*) where
  E : Matrix (Fin m) (Fin m) F
  r : ℕ
  piv : List ℕ

/-- The pivot search of one column step: the first row `≥ r` where the working
column is nonzero. -/
def findPivotRow (colv : Fin m → F) (st : RState m F) : Option (Fin m) :=
  (List.finRange m).find? fun (i : Fin m) => decide (st.r ≤ i.val ∧ st.E.mulVec colv i ≠ 0)

/-- Apply the row operations of one pivot step: swap the pivot row `i0` into
row `r`, normalise the pivot entry to `1` (the normalisation is skipped when
the entry is already `1`), and clear the rest of the column. -/
def pivotApply (colv : Fin m → F) (j : ℕ) (st : RState m F) (i0 : Fin m)
    (hr : st.r < m) : RState m F :=
  let c := st.E.mulVec colv
  let rF : Fin m := ⟨st.r, hr⟩
  let E1 := rowSwap rF i0 st.E
  let E2 := if c i0 = 1 then E1 else rowScale rF (c i0)⁻¹ E1
  let c2 := E2.mulVec colv
  ⟨rowElim rF (fun a => if a = rF then 0 else c2 a) E2, st.r + 1, st.piv ++ [j]⟩

/-- Process one column, given its values in `colv`: look for a nonzero entry of
the working column at some row `≥ r`; if present, perform the pivot step. -/
def stepColCore (colv : Fin m → F) (j : ℕ) (st : RState m F) : RState m F :=
  match hf : findPivotRow colv st with
  | none => st
  | some i0 =>
      have hp : st.r ≤ i0.val ∧ st.E.mulVec colv i0 ≠ 0 := by
        have h1 := List.find?_some hf
        simpa using h1
      pivotApply colv j st i0 (lt_of_le_of_lt hp.1 i0.isLt)

/-- Process column `j` of the matrix `A` (a no-op when `j` is out of range). -/
def stepCol (A : Matrix (Fin m) (Fin n) F) (j : ℕ) (st : RState m F) : RState m F :=
  if hj : j < n then stepColCore (fun i => A i ⟨j, hj⟩) j st else st

/-- The elimination state after processing columns `0, …, j-1`. -/
def rrefSteps (A : Matrix (Fin m) (Fin n) F) : ℕ → RState m F
  | 0 => ⟨1, 0, []⟩
  | j + 1 => stepCol A j (rrefSteps A j)

/-- The accumulated row transformation of the full elimination. -/
def rrefT (A : Matrix (Fin m) (Fin n) F) : Matrix (Fin m) (Fin m) F :=
  (rrefSteps A n).E

/-- Reduced row-echelon form, as computed by the engine's `rref`.
Modelled from the spec: `rref(A)` returns the reduced row-echelon form using a
canonical left-to-right column scan. -/
def rref (A : Matrix (Fin m) (Fin n) F) : Matrix (Fin m) (Fin n) F :=
  rrefT A * A

/-- Rank, as computed by the engine: the number of pivots (equivalently, of
nonzero rows) produced by row reduction.
Modelled from the spec: `rank(A)` returns the number of nonzero rows after
row-reduction. -/
def eRank (A : Matrix (Fin m) (Fin n) F) : ℕ :=
  (rrefSteps A n).r

/-- The ordered pivot-column index list produced by row reduction.
Modelled from the spec: `rref` also returns the ordered list of pivot column
indices. -/
def ePivots (A : Matrix (Fin m) (Fin n) F) : List ℕ :=
  (rrefSteps A n).piv

/-! ## Basic lemmas about the elimination steps -/

theorem rowScale_one (r : Fin m) (A : Matrix (Fin m) (Fin p) F) :
    rowScale r (1 : F) A = A := by
  funext a j
  simp [rowScale]

theorem mulVec_col (E : Matrix (Fin m) (Fin m) F) (A : Matrix (Fin m) (Fin n) F)
    (j : Fin n) : E.mulVec (fun i => A i j) = fun i => (E * A) i j := by
  funext i
  simp [Matrix.mulVec, Matrix.mul_apply, Matrix.dotProduct]

theorem stepColCore_none (colv : Fin m → F) (j : ℕ) (st : RState m F)
    (h : findPivotRow colv st = none) : stepColCore colv j st = st := by
  unfold stepColCore
  split
  · rfl
  · rename_i heq
    rw [h] at heq
    exact absurd heq (by simp)

theorem stepColCore_some (colv : Fin m → F) (j : ℕ) (st : RState m F) (i0 : Fin m)
    (h : findPivotRow colv st = some i0) (hr : st.r < m) :
    stepColCore colv j st = pivotApply colv j st i0 hr := by
  unfold stepColCore
  split
  · rename_i heq
    rw [h] at heq
    exact absurd heq (by simp)
  · rename_i x heq
    rw [h] at heq
    obtain rfl : x = i0 := by
      injection heq with h2
      exact h2.symm
    rfl

/-- The pivot row returned by the search is at or below row `r` and carries a
nonzero working entry. -/
theorem findPivotRow_some {colv : Fin m → F} {st : RState m F} {i0 : Fin m}
    (h : findPivotRow colv st = some i0) :
    st.r ≤ i0.val ∧ st.E.mulVec colv i0 ≠ 0 := by
  have h1 := List.find?_some h
  simpa using h1

/-- Rows `≥ r` of the working column are all zero when the pivot search fails. -/
theorem findPivotRow_none {colv : Fin m → F} {st : RState m F}
    (h : findPivotRow colv st = none) (i : Fin m) (hi : st.r ≤ i.val) :
    st.E.mulVec colv i = 0 := by
  have h1 := List.find?_eq_none.mp h i (List.mem_finRange i)
  by_contra hne
  exact h1 (by simpa using ⟨hi, hne⟩)

/-- The conditional normalisation step agrees with unconditional scaling by the
inverse of the pivot entry. -/
theorem scale_if_eq (rF : Fin m) (c : F) (E1 : Matrix (Fin m) (Fin m) F) :
    (if c = 1 then E1 else rowScale rF c⁻¹ E1) = rowScale rF c⁻¹ E1 := by
  split_ifs with h
  · rw [h, inv_one, rowScale_one]
  · rfl

/-- Unfolded description of the pivot step, with the normalisation made
unconditional. -/
theorem pivotApply_eq (colv : Fin m → F) (j : ℕ) (st : RState m F) (i0 : Fin m)
    (hr : st.r < m) :
    pivotApply colv j st i0 hr =
      ⟨rowElim ⟨st.r, hr⟩
          (fun a => if a = ⟨st.r, hr⟩ then 0
            else (rowScale ⟨st.r, hr⟩ (st.E.mulVec colv i0)⁻¹
              (rowSwap ⟨st.r, hr⟩ i0 st.E)).mulVec colv a)
          (rowScale ⟨st.r, hr⟩ (st.E.mulVec colv i0)⁻¹ (rowSwap ⟨st.r, hr⟩ i0 st.E)),
        st.r + 1, st.piv ++ [j]⟩ := by
  simp only [pivotApply, scale_if_eq]

/-- Processing stops changing the state once the column index passes `n`. -/
theorem rrefSteps_stable (A : Matrix (Fin m) (Fin n) F) {j : ℕ} (hj : n ≤ j) :
    rrefSteps A j = rrefSteps A n := by
  induction j with
  | zero => cases Nat.le_zero.mp hj; rfl
  | succ j ih =>
    rcases Nat.lt_or_ge n (j + 1) with h | h
    · have hnj : n ≤ j := Nat.lt_succ_iff.mp h
      rw [rrefSteps, ih hnj]
      unfold stepCol
      rw [dif_neg (Nat.not_lt.mpr hnj)]
    · exact (congrArg (rrefSteps A) (le_antisymm hj h)).symm

/-- The elimination state after `j` steps depends only on the first `j` columns
of the input matrix. -/
theorem rrefSteps_congr {n' : ℕ} (A : Matrix (Fin m) (Fin n) F)
    (B : Matrix (Fin m) (Fin n') F) (j : ℕ) (hjn : j ≤ n) (hjn' : j ≤ n')
    (hAB : ∀ (i : Fin m) (c : ℕ) (hc : c < n) (hc' : c < n'),
      c < j → A i ⟨c, hc⟩ = B i ⟨c, hc'⟩) :
    rrefSteps A j = rrefSteps B j := by
  induction j with
  | zero => rfl
  | succ j ih =>
    have hjn1 : j < n := hjn
    have hjn1' : j < n' := hjn'
    have hst : rrefSteps A j = rrefSteps B j :=
      ih (le_of_lt hjn1) (le_of_lt hjn1')
        (fun i c hc hc' hcj => hAB i c hc hc' (Nat.lt_succ_of_lt hcj))
    show stepCol A j (rrefSteps A j) = stepCol B j (rrefSteps B j)
    rw [hst]
    unfold stepCol
    rw [dif_pos hjn1, dif_pos hjn1']
    have hcol : (fun i => A i ⟨j, hjn1⟩) = fun i => B i ⟨j, hjn1'⟩ := by
      funext i
      exact hAB i j hjn1 hjn1' (Nat.lt_succ_self j)
    rw [hcol]

/-! ## The partial echelon-form invariant

`PR A j st` says that `st` is a valid elimination state after processing the
first `j` columns of `A`: the accumulated transformation is invertible, the
pivot columns of the working matrix `st.E * A` are standard basis vectors, the
rows below the pivot rows vanish on all processed columns, and each pivot row
vanishes left of its pivot. -/

structure PR (A : Matrix (Fin m) (Fin n) F) (j : ℕ) (st : RState m F) : Prop where
  unit : IsUnit st.E
  rlen : st.piv.length = st.r
  rle : st.r ≤ m
  pivlt : ∀ q ∈ st.piv, q < j ∧ q < n
  pivmono : st.piv.Pairwise (· < ·)
  pivcol : ∀ (a : Fin st.piv.length) (hq : st.piv.get a < n) (i : Fin m),
      (st.E * A) i ⟨st.piv.get a, hq⟩ = if i.val = a.val then 1 else 0
  lowzero : ∀ (i : Fin m), st.r ≤ i.val → ∀ (c : Fin n), c.val < j → (st.E * A) i c = 0
  leadzero : ∀ (a : Fin st.piv.length) (i : Fin m), i.val = a.val →
      ∀ (c : Fin n), c.val < st.piv.get a → (st.E * A) i c = 0

theorem PR_zero (A : Matrix (Fin m) (Fin n) F) : PR A 0 (rrefSteps A 0) where
  unit := by simp [rrefSteps]
  rlen := rfl
  rle := Nat.zero_le m
  pivlt := by intro q hq; simp [rrefSteps] at hq
  pivmono := by simp [rrefSteps]
  pivcol := by intro a; exact absurd a.isLt (by simp [rrefSteps])
  lowzero := by intro i hi c hc; omega
  leadzero := by intro a; exact absurd a.isLt (by simp [rrefSteps])

/-- When the pivot search fails on column `j`, the old state remains a valid
state for `j + 1` processed columns. -/
theorem PR_nopivot (A : Matrix (Fin m) (Fin n) F) {j : ℕ} (hj : j < n) {st : RState m F}
    (h : PR A j st) (hfp : findPivotRow (fun i => A i ⟨j, hj⟩) st = none) :
    PR A (j + 1) st where
  unit := h.unit
  rlen := h.rlen
  rle := h.rle
  pivlt := fun q hq => ⟨Nat.lt_succ_of_lt (h.pivlt q hq).1, (h.pivlt q hq).2⟩
  pivmono := h.pivmono
  pivcol := h.pivcol
  lowzero := by
    intro i hi c hc
    rcases Nat.lt_or_ge c.val j with hcj | hcj
    · exact h.lowzero i hi c hcj
    · have hcj2 : c.val = j := by omega
      have hceq : c = ⟨j, hj⟩ := Fin.ext hcj2
      have h0 := findPivotRow_none hfp i hi
      rw [mulVec_col] at h0
      rw [hceq]
      exact h0
  leadzero := h.leadzero

/-- The pivot step on column `j` turns a valid state for `j` processed columns
into a valid state for `j + 1` processed columns. -/
theorem PR_pivot (A : Matrix (Fin m) (Fin n) F) {j : ℕ} (hj : j < n) {st : RState m F}
    (h : PR A j st) (i0 : Fin m) (hi0 : st.r ≤ i0.val)
    (hc0 : st.E.mulVec (fun i => A i ⟨j, hj⟩) i0 ≠ 0) (hr : st.r < m) :
    PR A (j + 1) (pivotApply (fun i => A i ⟨j, hj⟩) j st i0 hr) := by
  rw [pivotApply_eq]
  set colv : Fin m → F := fun i => A i ⟨j, hj⟩ with hcolv
  set rF : Fin m := ⟨st.r, hr⟩ with hrF
  set cv : F := st.E.mulVec colv i0 with hcv
  set E2 : Matrix (Fin m) (Fin m) F := rowScale rF cv⁻¹ (rowSwap rF i0 st.E) with hE2
  set c2 : Fin m → F := E2.mulVec colv with hc2
  set E3 : Matrix (Fin m) (Fin m) F :=
    rowElim rF (fun a => if a = rF then 0 else c2 a) E2 with hE3
  have hrFval : rF.val = st.r := rfl
  have hrlen : st.piv.length = st.r := h.rlen
  -- working-matrix entry descriptions
  have hW : ∀ i : Fin m, st.E.mulVec colv i = (st.E * A) i ⟨j, hj⟩ := by
    intro i
    rw [hcolv, mulVec_col]
  have hW2 : ∀ (i : Fin m) (cc : Fin n), (E2 * A) i cc =
      if i = rF then cv⁻¹ * (st.E * A) i0 cc
      else if i = i0 then (st.E * A) rF cc else (st.E * A) i cc := by
    intro i cc
    rw [hE2, rowScale_mul, rowSwap_mul]
    by_cases h1 : i = rF
    · simp [rowScale, rowSwap, h1, ite_apply]
    · by_cases h2 : i = i0
      · have h3 : ¬(i0 = rF) := by rw [← h2]; exact h1
        simp [rowScale, rowSwap, h1, h2, h3, ite_apply]
      · simp [rowScale, rowSwap, h1, h2, ite_apply]
  have hW3 : ∀ (i : Fin m) (cc : Fin n), (E3 * A) i cc =
      if i = rF then (E2 * A) rF cc
      else (E2 * A) i cc - c2 i * (E2 * A) rF cc := by
    intro i cc
    rw [hE3, rowElim_mul]
    by_cases h1 : i = rF <;> simp [rowElim, h1]
  have hE2col : ∀ i : Fin m, c2 i = (E2 * A) i ⟨j, hj⟩ := by
    intro i
    rw [hc2, hcolv, mulVec_col]
  have hcvW : cv = (st.E * A) i0 ⟨j, hj⟩ := hW i0
  have hc2rF : c2 rF = 1 := by
    rw [hE2col, hW2, if_pos rfl, ← hcvW, inv_mul_cancel₀ hc0]
  have hW2rFlow : ∀ cc : Fin n, cc.val < j → (E2 * A) rF cc = 0 := by
    intro cc hcc
    rw [hW2, if_pos rfl, h.lowzero i0 hi0 cc hcc, mul_zero]
  -- the eight invariant clauses for the new state
  have f_unit : IsUnit E3 :=
    isUnit_rowElim _ _ _ (isUnit_rowScale _ _ (inv_ne_zero hc0) _
      (isUnit_rowSwap _ _ _ h.unit))
  have f_rlen : (st.piv ++ [j]).length = st.r + 1 := by simp [hrlen]
  have f_rle : st.r + 1 ≤ m := hr
  have f_pivlt : ∀ q ∈ st.piv ++ [j], q < j + 1 ∧ q < n := by
    intro q hq
    rcases List.mem_append.mp hq with hq1 | hq1
    · exact ⟨Nat.lt_succ_of_lt (h.pivlt q hq1).1, (h.pivlt q hq1).2⟩
    · have : q = j := by simpa using hq1
      omega
  have f_pivmono : (st.piv ++ [j]).Pairwise (· < ·) := by
    refine List.pairwise_append.mpr ⟨h.pivmono, by simp, ?_⟩
    intro a ha b hb
    have hb1 : b = j := by simpa using hb
    rw [hb1]
    exact (h.pivlt a ha).1
  have f_pivcol : ∀ (a : Fin (st.piv ++ [j]).length)
      (hq : (st.piv ++ [j]).get a < n) (i : Fin m),
      (E3 * A) i ⟨(st.piv ++ [j]).get a, hq⟩ = if i.val = a.val then 1 else 0 := by
    intro a hq i
    rcases Nat.lt_or_ge a.val st.piv.length with ha | ha
    · -- an old pivot column
      have hget : (st.piv ++ [j]).get a = st.piv.get ⟨a.val, ha⟩ := by
        simp [List.getElem_append_left ha]
      have hqltn : st.piv.get ⟨a.val, ha⟩ < n :=
        (h.pivlt _ (List.get_mem st.piv _ _)).2
      have hqltj : st.piv.get ⟨a.val, ha⟩ < j :=
        (h.pivlt _ (List.get_mem st.piv _ _)).1
      have hgfin : (⟨(st.piv ++ [j]).get a, hq⟩ : Fin n) =
          ⟨st.piv.get ⟨a.val, ha⟩, hqltn⟩ := Fin.ext hget
      rw [hgfin, hW3]
      have hδ := h.pivcol ⟨a.val, ha⟩ hqltn
      by_cases h1 : i = rF
      · rw [if_pos h1, hW2rFlow _ hqltj]
        have h1v : i.val = st.r := by rw [h1]
        rw [if_neg (by omega)]
      · rw [if_neg h1, hW2rFlow _ hqltj, mul_zero, sub_zero, hW2, if_neg h1]
        by_cases h2 : i = i0
        · have h2v : i.val = i0.val := by rw [h2]
          rw [if_pos h2, hδ rF]
          rw [if_neg (by omega), if_neg (by omega)]
        · rw [if_neg h2, hδ i]
    · -- the new pivot column `j`
      have haa : a.val = st.piv.length := by
        have h2 := a.isLt
        simp at h2
        omega
      have hget : (st.piv ++ [j]).get a = j := by
        have h2 : (st.piv ++ [j]).get a =
            (st.piv ++ [j]).get ⟨st.piv.length, by simp⟩ := by
          congr 1
          exact Fin.ext haa
        rw [h2]
        simp
      have hgfin : (⟨(st.piv ++ [j]).get a, hq⟩ : Fin n) = ⟨j, hj⟩ :=
        Fin.ext hget
      rw [hgfin, hW3]
      by_cases h1 : i = rF
      · rw [if_pos h1, ← hE2col, hc2rF]
        have h1v : i.val = st.r := by rw [h1]
        rw [if_pos (by omega)]
      · rw [if_neg h1, ← hE2col, ← hE2col, hc2rF, mul_one, sub_self]
        have h1v : i.val ≠ st.r := fun hcontra => h1 (Fin.ext hcontra)
        rw [if_neg (by omega)]
  have f_lowzero : ∀ (i : Fin m), st.r + 1 ≤ i.val →
      ∀ (cc : Fin n), cc.val < j + 1 → (E3 * A) i cc = 0 := by
    intro i hi cc hcc
    have h1 : i ≠ rF := by
      intro hcontra
      have : i.val = st.r := by rw [hcontra]
      omega
    rw [hW3, if_neg h1]
    rcases Nat.lt_or_ge cc.val j with hccj | hccj
    · rw [hW2rFlow _ hccj, mul_zero, sub_zero, hW2, if_neg h1]
      by_cases h2 : i = i0
      · rw [if_pos h2]
        exact h.lowzero rF (le_refl st.r) cc hccj
      · rw [if_neg h2]
        exact h.lowzero i (by omega) cc hccj
    · have hccj2 : cc.val = j := by omega
      have hceq : cc = ⟨j, hj⟩ := Fin.ext hccj2
      rw [hceq, ← hE2col, ← hE2col, hc2rF, mul_one, sub_self]
  have f_leadzero : ∀ (a : Fin (st.piv ++ [j]).length) (i : Fin m), i.val = a.val →
      ∀ (cc : Fin n), cc.val < (st.piv ++ [j]).get a → (E3 * A) i cc = 0 := by
    intro a i hia cc hcc
    rcases Nat.lt_or_ge a.val st.piv.length with ha | ha
    · have hget : (st.piv ++ [j]).get a = st.piv.get ⟨a.val, ha⟩ := by
        simp [List.getElem_append_left ha]
      rw [hget] at hcc
      have hqltj : st.piv.get ⟨a.val, ha⟩ < j :=
        (h.pivlt _ (List.get_mem st.piv _ _)).1
      have hccj : cc.val < j := by omega
      have h1 : i ≠ rF := by
        intro hcontra
        have : i.val = st.r := by rw [hcontra]
        omega
      have h2 : i ≠ i0 := by
        intro hcontra
        have : i.val = i0.val := by rw [hcontra]
        omega
      rw [hW3, if_neg h1, hW2rFlow _ hccj, mul_zero, sub_zero, hW2, if_neg h1,
        if_neg h2]
      exact h.leadzero ⟨a.val, ha⟩ i hia cc hcc
    · have haa : a.val = st.piv.length := by
        have h2 := a.isLt
        simp at h2
        omega
      have hget : (st.piv ++ [j]).get a = j := by
        have h2 : (st.piv ++ [j]).get a =
            (st.piv ++ [j]).get ⟨st.piv.length, by simp⟩ := by
          congr 1
          exact Fin.ext haa
        rw [h2]
        simp
      rw [hget] at hcc
      have h1 : i = rF := Fin.ext (by omega)
      rw [hW3, if_pos h1]
      exact hW2rFlow cc hcc
  exact ⟨f_unit, f_rlen, f_rle, f_pivlt, f_pivmono, f_pivcol, f_lowzero, f_leadzero⟩

/-- Each elimination state reached while scanning the columns of `A` satisfies
the partial echelon-form invariant. -/
theorem PR_rrefSteps (A : Matrix (Fin m) (Fin n) F) (j : ℕ) (hjn : j ≤ n) :
    PR A j (rrefSteps A j) := by
  induction j with
  | zero => exact PR_zero A
  | succ j ih =>
    have hj : j < n := hjn
    have h := ih (le_of_lt hj)
    show PR A (j + 1) (stepCol A j (rrefSteps A j))
    unfold stepCol
    rw [dif_pos hj]
    cases hfp : findPivotRow (fun i => A i ⟨j, hj⟩) (rrefSteps A j) with
    | none =>
      rw [stepColCore_none _ _ _ hfp]
      exact PR_nopivot A hj h hfp
    | some i0 =>
      have hp := findPivotRow_some hfp
      have hr : (rrefSteps A j).r < m := lt_of_le_of_lt hp.1 i0.isLt
      rw [stepColCore_some _ _ _ i0 hfp hr]
      exact PR_pivot A hj h i0 hp.1 hp.2 hr

/-- The invariant at the end of the scan: the full reduced row-echelon form. -/
theorem PR_full (A : Matrix (Fin m) (Fin n) F) : PR A n (rrefSteps A n) :=
  PR_rrefSteps A n (le_refl n)

/-! ## Consequences of the invariant -/

theorem rref_eq_mul (A : Matrix (Fin m) (Fin n) F) : rref A = rrefT A * A := rfl

theorem isUnit_rrefT (A : Matrix (Fin m) (Fin n) F) : IsUnit (rrefT A) :=
  (PR_full A).unit

theorem ePivots_length (A : Matrix (Fin m) (Fin n) F) :
    (ePivots A).length = eRank A :=
  (PR_full A).rlen

theorem eRank_le_dim (A : Matrix (Fin m) (Fin n) F) : eRank A ≤ m :=
  (PR_full A).rle

theorem ePivots_lt (A : Matrix (Fin m) (Fin n) F) : ∀ q ∈ ePivots A, q < n :=
  fun q hq => ((PR_full A).pivlt q hq).2

theorem ePivots_sorted (A : Matrix (Fin m) (Fin n) F) :
    (ePivots A).Pairwise (· < ·) :=
  (PR_full A).pivmono

theorem rref_pivcol (A : Matrix (Fin m) (Fin n) F) (a : Fin (ePivots A).length)
    (hq : (ePivots A).get a < n) (i : Fin m) :
    rref A i ⟨(ePivots A).get a, hq⟩ = if i.val = a.val then 1 else 0 :=
  (PR_full A).pivcol a hq i

theorem rref_lowzero (A : Matrix (Fin m) (Fin n) F) (i : Fin m)
    (hi : eRank A ≤ i.val) : rref A i = 0 :=
  funext fun c => (PR_full A).lowzero i hi c c.isLt

theorem rref_leadzero (A : Matrix (Fin m) (Fin n) F) (a : Fin (ePivots A).length)
    (i : Fin m) (hia : i.val = a.val) (c : Fin n) (hc : c.val < (ePivots A).get a) :
    rref A i c = 0 :=
  (PR_full A).leadzero a i hia c hc

/-- The input matrix is recovered from its reduced row-echelon form by the
inverse row transformation. -/
theorem exists_inv_rrefT (A : Matrix (Fin m) (Fin n) F) :
    ∃ B : Matrix (Fin m) (Fin m) F,
      B * rrefT A = 1 ∧ rrefT A * B = 1 ∧ A = B * rref A := by
  obtain ⟨U, hU⟩ := isUnit_rrefT A
  refine ⟨↑U⁻¹, ?_, ?_, ?_⟩
  · rw [← hU]
    exact U.inv_mul
  · rw [← hU]
    exact U.mul_inv
  · rw [rref_eq_mul, ← Matrix.mul_assoc, ← hU]
    rw [U.inv_mul, Matrix.one_mul]

/-! ## The rank bridge

The engine's rank — the number of pivots of the elimination — agrees with the
mathematical rank of the matrix. -/

theorem rank_rref (A : Matrix (Fin m) (Fin n) F) : (rref A).rank = A.rank := by
  obtain ⟨B, hB1, _hB2, hB3⟩ := exists_inv_rrefT A
  refine le_antisymm ?_ ?_
  · rw [rref_eq_mul]
    exact Matrix.rank_mul_le_right _ _
  · calc A.rank = (B * rref A).rank := by rw [← hB3]
    _ ≤ (rref A).rank := Matrix.rank_mul_le_right _ _

/-- The row index embedding of the `a`-th pivot row. -/
def pivRow (A : Matrix (Fin m) (Fin n) F) (a : Fin (ePivots A).length) : Fin m :=
  ⟨a.val, lt_of_lt_of_le (lt_of_lt_of_le a.isLt (le_of_eq (ePivots_length A)))
    (eRank_le_dim A)⟩

/-- The column index of the `a`-th pivot. -/
def pivCol (A : Matrix (Fin m) (Fin n) F) (a : Fin (ePivots A).length) : Fin n :=
  ⟨(ePivots A).get a, ePivots_lt A _ (List.get_mem _ _ _)⟩

theorem rref_pivCol_col (A : Matrix (Fin m) (Fin n) F) (a : Fin (ePivots A).length) :
    (fun i => rref A i (pivCol A a)) = Pi.single (pivRow A a) (1 : F) := by
  funext i
  rw [pivCol, rref_pivcol A a]
  by_cases h : i = pivRow A a
  · have hv : i.val = a.val := by rw [h]; rfl
    rw [if_pos hv, h, Pi.single_eq_same]
  · have hv : i.val ≠ a.val := by
      intro hc
      exact h (Fin.ext hc)
    rw [if_neg hv, Pi.single_eq_of_ne h]

theorem eRank_le_rank (A : Matrix (Fin m) (Fin n) F) : eRank A ≤ (rref A).rank := by
  classical
  rw [Matrix.rank_eq_finrank_span_cols]
  set t : ℕ := eRank A with ht
  have hlen : (ePivots A).length = t := ePivots_length A
  -- the pivot columns are distinct standard basis vectors
  set b : Fin (ePivots A).length → (Fin m → F) :=
    fun a => Pi.single (pivRow A a) (1 : F) with hb
  have hbmem : Set.range b ⊆ Set.range (rref A)ᵀ := by
    rintro x ⟨a, rfl⟩
    refine ⟨pivCol A a, ?_⟩
    rw [hb]
    exact rref_pivCol_col A a
  have hinj : Function.Injective (fun a : Fin (ePivots A).length => pivRow A a) := by
    intro a b hab
    have h2 : (pivRow A a).val = (pivRow A b).val := congrArg Fin.val hab
    exact Fin.ext h2
  have hli : LinearIndependent F b := by
    have h1 : b = fun a => (Pi.basisFun F (Fin m)) (pivRow A a) := by
      funext a
      rw [hb, Pi.basisFun_apply]
    rw [h1]
    exact (Pi.basisFun F (Fin m)).linearIndependent.comp _ hinj
  have h2 : Submodule.span F (Set.range b) ≤ Submodule.span F (Set.range (rref A)ᵀ) :=
    Submodule.span_mono hbmem
  have h3 := Submodule.finrank_mono h2
  rw [finrank_span_eq_card hli] at h3
  simpa [hlen] using h3

theorem rank_le_eRank (A : Matrix (Fin m) (Fin n) F) : (rref A).rank ≤ eRank A := by
  classical
  set t : ℕ := eRank A with ht
  have htm : t ≤ m := eRank_le_dim A
  set g : Fin t → (Fin n → F) := fun a => rref A ⟨a.val, lt_of_lt_of_le a.isLt htm⟩
    with hg
  have hspan : Submodule.span F (Set.range (rref A)) ≤ Submodule.span F (Set.range g) := by
    rw [Submodule.span_le]
    rintro x ⟨i, rfl⟩
    rcases Nat.lt_or_ge i.val t with hi | hi
    · apply Submodule.subset_span
      exact ⟨⟨i.val, hi⟩, by rw [hg]⟩
    · rw [rref_lowzero A i hi]
      exact Submodule.zero_mem _
  have h1 : (rref A).rank = (rref A)ᵀ.rank := (Matrix.rank_transpose (rref A)).symm
  rw [h1, Matrix.rank_eq_finrank_span_cols, Matrix.transpose_transpose]
  have h2 := Submodule.finrank_mono hspan
  have h3 : Module.finrank F (Submodule.span F (Set.range g)) ≤ t := by
    have h4 := finrank_range_le_card (R := F) g
    simpa [Set.finrank] using h4
  exact le_trans h2 h3

/-- The number of pivots of the elimination is the rank of the matrix. -/
theorem eRank_eq_rank (A : Matrix (Fin m) (Fin n) F) : eRank A = A.rank := by
  have h1 := eRank_le_rank A
  have h2 := rank_le_eRank A
  have h3 := rank_rref A
  omega

/-! ## Full-rank matrices -/

/-- A strictly increasing list of naturals bounded by its own length is an
initial segment. -/
theorem get_eq_of_pairwise_lt (l : List ℕ) (hs : l.Pairwise (· < ·))
    (hlt : ∀ q ∈ l, q < l.length) (i : ℕ) (h : i < l.length) :
    l.get ⟨i, h⟩ = i := by
  have hmono := List.pairwise_iff_get.mp hs
  have hlow : ∀ (i : ℕ) (h : i < l.length), i ≤ l.get ⟨i, h⟩ := by
    intro i
    induction i with
    | zero => intro h; exact Nat.zero_le _
    | succ i ih =>
      intro h
      have hi : i < l.length := by omega
      have h1 := ih hi
      have h2 := hmono ⟨i, hi⟩ ⟨i + 1, h⟩ (Fin.mk_lt_mk.mpr (by omega))
      omega
  have hupp : ∀ (d i : ℕ) (h : i < l.length), l.length ≤ i + d + 1 → l.get ⟨i, h⟩ ≤ i := by
    intro d
    induction d with
    | zero =>
      intro i h hle
      have h2 := hlt (l.get ⟨i, h⟩) (List.get_mem l i h)
      omega
    | succ d ih =>
      intro i h hle
      rcases Nat.lt_or_ge (i + 1) l.length with h1 | h1
      · have h2 := ih (i + 1) h1 (by omega)
        have h3 := hmono ⟨i, h⟩ ⟨i + 1, h1⟩ (Fin.mk_lt_mk.mpr (by omega))
        omega
      · have h2 := hlt (l.get ⟨i, h⟩) (List.get_mem l i h)
        omega
  exact le_antisymm (hupp l.length i h (by omega)) (hlow i h)

/-- When the rank equals the column count, the pivot columns are exactly
`0, …, n-1` in order. -/
theorem ePivots_get_full (A : Matrix (Fin m) (Fin n) F) (h : eRank A = n)
    (i : ℕ) (hi : i < (ePivots A).length) : (ePivots A).get ⟨i, hi⟩ = i := by
  refine get_eq_of_pairwise_lt _ (ePivots_sorted A) ?_ i hi
  intro q hq
  have h1 := ePivots_lt A q hq
  have h2 := ePivots_length A
  omega

/-- A matrix of full column rank has the rectangular identity as its reduced
row-echelon form. -/
theorem rref_full_col (A : Matrix (Fin m) (Fin n) F) (h : eRank A = n)
    (i : Fin m) (c : Fin n) : rref A i c = if i.val = c.val then 1 else 0 := by
  have hlen : (ePivots A).length = n := by rw [ePivots_length, h]
  have hc : c.val < (ePivots A).length := by omega
  have hget : (ePivots A).get ⟨c.val, hc⟩ = c.val := ePivots_get_full A h c.val hc
  have hq : (ePivots A).get ⟨c.val, hc⟩ < n := by omega
  have h2 := rref_pivcol A ⟨c.val, hc⟩ hq i
  have hfin : (⟨(ePivots A).get ⟨c.val, hc⟩, hq⟩ : Fin n) = c := Fin.ext hget
  rw [hfin] at h2
  exact h2

/-- A square matrix of full rank reduces to the identity. -/
theorem rref_eq_one_of_eRank (A : Matrix (Fin p) (Fin p) F) (h : eRank A = p) :
    rref A = 1 := by
  funext i c
  rw [rref_full_col A h i c, Matrix.one_apply]
  simp [Fin.ext_iff]

/-- A square matrix of full elimination rank has an invertible determinant. -/
theorem isUnit_det_of_eRank (A : Matrix (Fin p) (Fin p) F) (h : eRank A = p) :
    IsUnit A.det :=
  Matrix.isUnit_det_of_left_inverse (B := rrefT A) (by rw [← rref_eq_mul, rref_eq_one_of_eRank A h])

/-- Conversely, a square matrix with invertible determinant has full
elimination rank. -/
theorem eRank_eq_of_isUnit_det (A : Matrix (Fin p) (Fin p) F) (h : IsUnit A.det) :
    eRank A = p := by
  rw [eRank_eq_rank]
  have h2 := Matrix.rank_of_isUnit A ((Matrix.isUnit_iff_isUnit_det A).mpr h)
  rw [h2, Fintype.card_fin]

/-! ## Matrix inversion

`miv` is the engine's matrix inverse.
Modelled from the spec: `invert(A)` returns the unique matrix with
`A·A⁻¹ = I`; the singular case is detected at the call sites (the host system
raises an error there, which the protocol operations surface as a failure). -/

/-- Executable matrix inverse via the adjugate (the normalisation is skipped
when the determinant is already `1`, keeping the definition kernel-reducible
over fields whose division does not reduce). -/
def miv (A : Matrix (Fin p) (Fin p) F) : Matrix (Fin p) (Fin p) F :=
  (if A.det = 1 then 1 else A.det⁻¹) • A.adjugate

theorem miv_eq_inv (A : Matrix (Fin p) (Fin p) F) : miv A = A⁻¹ := by
  rw [miv, Matrix.inv_def, Ring.inverse_eq_inv]
  congr 1
  split_ifs with h
  · rw [h, inv_one]
  · rfl

/-! ## Submatrices of selected columns -/

/-- `submatrixByColumns`: the columns of `A` selected by the index list `l`
(out-of-range indices yield a zero column; they never occur in the protocol).
Modelled from the spec: `submatrixByColumns(A, indices)` selects columns
without mutating `A`. -/
def submatrixCols (A : Matrix (Fin m) (Fin n) F) (l : List ℕ) :
    Matrix (Fin m) (Fin l.length) F :=
  fun i c => if h : l.get c < n then A i ⟨l.get c, h⟩ else 0

theorem submatrixCols_mul (X : Matrix (Fin m) (Fin m) F) (Y : Matrix (Fin m) (Fin n) F)
    (l : List ℕ) : submatrixCols (X * Y) l = X * submatrixCols Y l := by
  funext i c
  by_cases h : l.get c < n
  · simp [submatrixCols, h, Matrix.mul_apply]
  · simp [submatrixCols, h, Matrix.mul_apply]

/-- The rectangular identity pattern. -/
def idRect (G : Type*) [Zero G] [One G] (k l : ℕ) : Matrix (Fin k) (Fin l) G :=
  fun i c => if i.val = c.val then 1 else 0

theorem idRect_sq (k : ℕ) : idRect F k k = 1 := by
  funext i c
  rw [idRect, Matrix.one_apply]
  simp [Fin.ext_iff]

theorem idRect_mul_idRect (k l : ℕ) (h : l = k) :
    idRect F k l * idRect F l k = 1 := by
  subst h
  rw [idRect_sq, Matrix.one_mul]

/-- Selecting the pivot columns of a reduced row-echelon form yields the
rectangular identity. -/
theorem submatrixCols_rref_pivots (A : Matrix (Fin m) (Fin n) F) :
    submatrixCols (rref A) (ePivots A) = idRect F m (ePivots A).length := by
  funext i c
  have hlt : (ePivots A).get c < n := ePivots_lt A _ (List.get_mem _ _ _)
  rw [submatrixCols, dif_pos hlt]
  exact rref_pivcol A c hlt i

/-- Pivot invertibility: the pivot-column submatrix of a full-row-rank matrix
is invertible (two-sided). -/
theorem pivot_submatrix_invertible (A : Matrix (Fin m) (Fin n) F) (h : eRank A = m) :
    ∃ B : Matrix (Fin (ePivots A).length) (Fin m) F,
      submatrixCols A (ePivots A) * B = 1 ∧ B * submatrixCols A (ePivots A) = 1 := by
  obtain ⟨Ei, hEi1, hEi2, hEi3⟩ := exists_inv_rrefT A
  have hlen : (ePivots A).length = m := by rw [ePivots_length, h]
  have hS : submatrixCols A (ePivots A) = Ei * idRect F m (ePivots A).length := by
    calc submatrixCols A (ePivots A)
        = submatrixCols (Ei * rref A) (ePivots A) := by rw [← hEi3]
      _ = Ei * submatrixCols (rref A) (ePivots A) := submatrixCols_mul Ei (rref A) _
      _ = Ei * idRect F m (ePivots A).length := by rw [submatrixCols_rref_pivots]
  have hid1 : idRect F m (ePivots A).length * idRect F (ePivots A).length m = 1 :=
    idRect_mul_idRect _ _ hlen
  have hid2 : idRect F (ePivots A).length m * idRect F m (ePivots A).length = 1 :=
    idRect_mul_idRect _ _ hlen.symm
  refine ⟨idRect F (ePivots A).length m * rrefT A, ?_, ?_⟩
  · rw [hS, Matrix.mul_assoc, ← Matrix.mul_assoc (idRect F m (ePivots A).length), hid1,
      Matrix.one_mul, hEi1]
  · have h3 : rrefT A * (Ei * idRect F m (ePivots A).length) =
        idRect F m (ePivots A).length := by
      rw [← Matrix.mul_assoc, hEi2, Matrix.one_mul]
    rw [hS, Matrix.mul_assoc, h3, hid2]

/-! ## Right kernel basis -/

theorem length_filter_partition (l : List ℕ) (pr : ℕ → Bool) :
    (l.filter pr).length + (l.filter (fun a => !(pr a))).length = l.length := by
  induction l with
  | nil => rfl
  | cons x xs ih =>
    by_cases h : pr x = true <;> simp [List.filter_cons, h] <;> omega

/-- The non-pivot (free) column indices of `A`, in increasing order. -/
def freeCols (A : Matrix (Fin m) (Fin n) F) : List ℕ :=
  (List.range n).filter (fun c => !((ePivots A).contains c))

theorem freeCols_mem (A : Matrix (Fin m) (Fin n) F) (c : ℕ) :
    c ∈ freeCols A ↔ c < n ∧ c ∉ ePivots A := by
  rw [freeCols, List.mem_filter, List.mem_range]
  constructor
  · rintro ⟨h1, h2⟩
    refine ⟨h1, fun hm => ?_⟩
    have h3 : (ePivots A).contains c = false := by simpa using h2
    have h4 : (ePivots A).contains c = true := List.elem_iff.mpr hm
    rw [h3] at h4
    simp at h4
  · rintro ⟨h1, h2⟩
    refine ⟨h1, ?_⟩
    have h3 : (ePivots A).contains c = false := by
      by_cases hb : (ePivots A).contains c = true
      · exact absurd (List.elem_iff.mp hb) h2
      · simpa using hb
    rw [h3]
    rfl

theorem freeCols_sorted (A : Matrix (Fin m) (Fin n) F) :
    (freeCols A).Pairwise (· < ·) :=
  (List.pairwise_lt_range n).filter _

theorem ePivots_nodup (A : Matrix (Fin m) (Fin n) F) : (ePivots A).Nodup :=
  (ePivots_sorted A).imp Nat.ne_of_lt

theorem freeCols_nodup (A : Matrix (Fin m) (Fin n) F) : (freeCols A).Nodup :=
  (freeCols_sorted A).imp Nat.ne_of_lt

/-- The kernel basis has one row per free column: `n - rank(A)` rows. -/
theorem freeCols_length (A : Matrix (Fin m) (Fin n) F) :
    (freeCols A).length = n - eRank A := by
  have h1 := length_filter_partition (List.range n)
    (fun c => !((ePivots A).contains c))
  have h2 : ((List.range n).filter (fun c => !(!((ePivots A).contains c)))).length =
      (ePivots A).length := by
    refine ((List.perm_ext_iff_of_nodup ((List.nodup_range n).filter _)
      (ePivots_nodup A)).mpr ?_).length_eq
    intro c
    simp only [List.mem_filter, List.mem_range, Bool.not_not, List.elem_iff]
    constructor
    · rintro ⟨_, h⟩
      exact h
    · intro h
      exact ⟨ePivots_lt A c h, h⟩
  have h3 := ePivots_length A
  have h4 : (freeCols A).length = (((List.range n)).filter
      (fun c => !((ePivots A).contains c))).length := rfl
  rw [List.length_range] at h1
  omega

theorem freeCols_get_lt (A : Matrix (Fin m) (Fin n) F) (a : Fin (freeCols A).length) :
    (freeCols A).get a < n :=
  ((freeCols_mem A _).mp (List.get_mem _ _ _)).1

theorem freeCols_get_not_piv (A : Matrix (Fin m) (Fin n) F)
    (a : Fin (freeCols A).length) : (freeCols A).get a ∉ ePivots A :=
  ((freeCols_mem A _).mp (List.get_mem _ _ _)).2

theorem ePivots_indexOf_lt (A : Matrix (Fin m) (Fin n) F) {c : ℕ}
    (hc : c ∈ ePivots A) : (ePivots A).indexOf c < m := by
  have h1 : (ePivots A).indexOf c < (ePivots A).length := List.indexOf_lt_length.mpr hc
  have h2 := ePivots_length A
  have h3 := eRank_le_dim A
  omega

/-- The right-kernel basis matrix, read off from the free columns of `rref A`:
one row per free column, carrying `1` in that free column, the negated `rref`
entries in the pivot columns, and `0` elsewhere.
Modelled from the spec: `rightKernelBasis(A)` returns a
`(n - rank(A)) × n` matrix whose rows form a basis of the right kernel,
derived from the free-variable columns of `rref(A)`. -/
def rightKernelMatrix (A : Matrix (Fin m) (Fin n) F) :
    Matrix (Fin (freeCols A).length) (Fin n) F :=
  fun a c =>
    if c.val = (freeCols A).get a then 1
    else if hc : (ePivots A).contains c.val = true then
      -(rref A ⟨(ePivots A).indexOf c.val, ePivots_indexOf_lt A (List.elem_iff.mp hc)⟩
        ⟨(freeCols A).get a, freeCols_get_lt A a⟩)
    else 0

theorem rref_pivCol (A : Matrix (Fin m) (Fin n) F) (b : Fin (ePivots A).length)
    (i : Fin m) : rref A i (pivCol A b) = if i.val = b.val then 1 else 0 :=
  rref_pivcol A b (ePivots_lt A _ (List.get_mem _ _ _)) i

/-- Every row of the kernel basis is annihilated by the reduced form. -/
theorem rref_mulVec_kernel (A : Matrix (Fin m) (Fin n) F)
    (a : Fin (freeCols A).length) :
    (rref A).mulVec (rightKernelMatrix A a) = 0 := by
  classical
  funext i
  rw [Pi.zero_apply]
  set fc : Fin n := ⟨(freeCols A).get a, freeCols_get_lt A a⟩ with hfc
  have hfcfree : (freeCols A).get a ∉ ePivots A := freeCols_get_not_piv A a
  have hK : ∀ c : Fin n, rightKernelMatrix A a c =
      (if c = fc then 1 else 0) +
      (if hc : c.val ∈ ePivots A then
        -(rref A ⟨(ePivots A).indexOf c.val, ePivots_indexOf_lt A hc⟩ fc) else 0) := by
    intro c
    by_cases h1 : c.val = (freeCols A).get a
    · have hceq : c = fc := Fin.ext h1
      have h2 : ¬ c.val ∈ ePivots A := by rw [h1]; exact hfcfree
      rw [rightKernelMatrix, if_pos h1, if_pos hceq, dif_neg h2, add_zero]
    · have hceq : ¬ c = fc := fun hcon => h1 (congrArg Fin.val hcon)
      rw [rightKernelMatrix, if_neg h1, if_neg hceq, zero_add]
      by_cases hm : c.val ∈ ePivots A
      · rw [dif_pos (List.elem_iff.mpr hm), dif_pos hm]
      · rw [dif_neg (fun hcon => hm (List.elem_iff.mp hcon)), dif_neg hm]
  have hpivlen : (ePivots A).length = eRank A := ePivots_length A
  -- expand the product along the split of the kernel vector
  have hexp : (rref A).mulVec (rightKernelMatrix A a) i =
      rref A i fc + ∑ c : Fin n, rref A i c *
        (if hc : c.val ∈ ePivots A then
          -(rref A ⟨(ePivots A).indexOf c.val, ePivots_indexOf_lt A hc⟩ fc) else 0) := by
    rw [Matrix.mulVec, dotProduct]
    rw [Finset.sum_congr rfl (fun c _ => by rw [hK c, mul_add])]
    rw [Finset.sum_add_distrib]
    congr 1
    rw [Finset.sum_congr rfl (fun c _ => by rw [mul_ite, mul_one, mul_zero])]
    rw [Finset.sum_ite_eq' Finset.univ fc (fun c => rref A i c)]
    simp
  rw [hexp]
  -- reindex the pivot-column sum by the pivot positions
  have himg : ∀ c : Fin n, c.val ∈ ePivots A ↔ c ∈ Finset.univ.image (pivCol A) := by
    intro c
    constructor
    · intro hc
      have hlt : (ePivots A).indexOf c.val < (ePivots A).length :=
        List.indexOf_lt_length.mpr hc
      refine Finset.mem_image.mpr ⟨⟨(ePivots A).indexOf c.val, hlt⟩, Finset.mem_univ _, ?_⟩
      apply Fin.ext
      exact List.indexOf_get hlt
    · intro hc
      obtain ⟨b, _, rfl⟩ := Finset.mem_image.mp hc
      exact List.get_mem _ _ _
  set g : Fin n → F := fun c => rref A i c *
      (if hc : c.val ∈ ePivots A then
        -(rref A ⟨(ePivots A).indexOf c.val, ePivots_indexOf_lt A hc⟩ fc) else 0) with hg
  have hsub : ∑ c : Fin n, g c = ∑ c ∈ Finset.univ.image (pivCol A), g c := by
    refine (Finset.sum_subset (Finset.subset_univ _) ?_).symm
    intro c _ hc
    rw [hg]
    have : ¬ c.val ∈ ePivots A := fun hcon => hc ((himg c).mp hcon)
    simp only [dif_neg this, mul_zero]
  have hinj : ∀ x ∈ Finset.univ, ∀ y ∈ Finset.univ, pivCol A x = pivCol A y → x = y := by
    intro x _ y _ hxy
    have h1 : (ePivots A).get x = (ePivots A).get y := congrArg Fin.val hxy
    exact ((ePivots_nodup A).get_inj_iff).mp h1
  have himgsum : ∑ c ∈ Finset.univ.image (pivCol A), g c =
      ∑ b : Fin (ePivots A).length, g (pivCol A b) :=
    Finset.sum_image hinj
  have hgb : ∀ b : Fin (ePivots A).length, g (pivCol A b) =
      (if i.val = b.val then 1 else 0) * -(rref A (pivRow A b) fc) := by
    intro b
    simp only [hg]
    have hmem : (pivCol A b).val ∈ ePivots A := List.get_mem _ _ _
    rw [dif_pos hmem]
    have hidx : (ePivots A).indexOf (pivCol A b).val = b.val := by
      have hlt : (ePivots A).indexOf (pivCol A b).val < (ePivots A).length :=
        List.indexOf_lt_length.mpr hmem
      have h1 : (ePivots A).get ⟨(ePivots A).indexOf (pivCol A b).val, hlt⟩ =
          (ePivots A).get b := List.indexOf_get hlt
      have h2 := ((ePivots_nodup A).get_inj_iff).mp h1
      exact congrArg Fin.val h2
    have hrow : (⟨(ePivots A).indexOf (pivCol A b).val,
        ePivots_indexOf_lt A hmem⟩ : Fin m) = pivRow A b := Fin.ext hidx
    rw [hrow, rref_pivCol]
  rw [hsub, himgsum, Finset.sum_congr rfl (fun b _ => hgb b)]
  rcases Nat.lt_or_ge i.val (ePivots A).length with hi | hi
  · have hsum2 : ∑ b : Fin (ePivots A).length,
        (if i.val = b.val then 1 else 0) * -(rref A (pivRow A b) fc) =
        -(rref A (pivRow A ⟨i.val, hi⟩) fc) := by
      rw [Finset.sum_eq_single ⟨i.val, hi⟩]
      · rw [if_pos rfl, one_mul]
      · intro b _ hb
        have : ¬ i.val = b.val := fun hcon => hb (Fin.ext hcon.symm)
        rw [if_neg this, zero_mul]
      · intro hcon
        exact absurd (Finset.mem_univ _) hcon
    rw [hsum2]
    have hrowi : pivRow A ⟨i.val, hi⟩ = i := Fin.ext rfl
    rw [hrowi]
    ring
  · have hz : ∀ b : Fin (ePivots A).length,
        (if i.val = b.val then (1 : F) else 0) * -(rref A (pivRow A b) fc) = 0 := by
      intro b
      have hb := b.isLt
      have hne : ¬ i.val = b.val := by omega
      rw [if_neg hne, zero_mul]
    rw [Finset.sum_congr rfl (fun b _ => hz b), Finset.sum_const_zero, add_zero,
      rref_lowzero A i (by omega), Pi.zero_apply]

/-- Kernel correctness, membership part: `A · rᵗ = 0` for every row `r` of the
kernel basis. -/
theorem kernel_mulVec (A : Matrix (Fin m) (Fin n) F) (a : Fin (freeCols A).length) :
    A.mulVec (rightKernelMatrix A a) = 0 := by
  obtain ⟨Ei, _, _, hEi3⟩ := exists_inv_rrefT A
  have h1 : A.mulVec (rightKernelMatrix A a) =
      (Ei * rref A).mulVec (rightKernelMatrix A a) := by rw [← hEi3]
  rw [h1, ← Matrix.mulVec_mulVec, rref_mulVec_kernel, Matrix.mulVec_zero]

/-- The kernel basis rows, as a matrix identity: `K · Aᵀ = 0`. -/
theorem rightKernelMatrix_mul_transpose (A : Matrix (Fin m) (Fin n) F) :
    rightKernelMatrix A * Aᵀ = 0 := by
  funext a c
  have h := congrFun (kernel_mulVec A a) c
  simp only [Matrix.mulVec, dotProduct, Pi.zero_apply] at h
  simp only [Matrix.mul_apply, Matrix.transpose_apply, Matrix.zero_apply]
  rw [Finset.sum_congr rfl (fun x _ => mul_comm (rightKernelMatrix A a x) (A c x))]
  exact h

/-- Kernel correctness, independence part: the rows of the kernel basis are
linearly independent. -/
theorem rightKernelMatrix_linearIndependent (A : Matrix (Fin m) (Fin n) F) :
    LinearIndependent F (fun a => rightKernelMatrix A a) := by
  rw [Fintype.linearIndependent_iff]
  intro g hg a
  have h1 := congrFun hg ⟨(freeCols A).get a, freeCols_get_lt A a⟩
  simp only [Finset.sum_apply, Pi.smul_apply, smul_eq_mul, Pi.zero_apply] at h1
  have hKb : ∀ b, rightKernelMatrix A b ⟨(freeCols A).get a, freeCols_get_lt A a⟩ =
      if b = a then 1 else 0 := by
    intro b
    by_cases hba : b = a
    · subst hba
      rw [rightKernelMatrix, if_pos rfl, if_pos rfl]
    · have hne : ¬ (freeCols A).get a = (freeCols A).get b := by
        intro hcon
        exact hba (((freeCols_nodup A).get_inj_iff).mp hcon.symm)
      rw [rightKernelMatrix, if_neg hne, dif_neg, if_neg hba]
      exact fun hcon => freeCols_get_not_piv A a (List.elem_iff.mp hcon)
  rw [Finset.sum_congr rfl (fun b _ => by rw [hKb b, mul_ite, mul_one, mul_zero])] at h1
  rw [Finset.sum_ite_eq' Finset.univ a g] at h1
  simpa using h1

/-! ## The protocol

The four operations of `ikk_simulation.py`.  The pseudo-random draws of the
source (`random_matrix`, `random_vector`) are passed in explicitly, as the
specification directs for the external random source; the full-rank guarantees
established by `random_nonsingular_matrix`'s rejection loop become hypotheses
of the correctness theorems. -/

/-- Append one extra column to a matrix — `A.augment(matrix(R, n, 1, b))`. -/
def augmentCol (A : Matrix (Fin m) (Fin n) F) (b : Fin m → F) :
    Matrix (Fin m) (Fin (n + 1)) F :=
  fun i c => if h : c.val < n then A i ⟨c.val, h⟩ else b i

/-- Horizontal concatenation of two matrices — `A.augment(B)`. -/
def augmentMat (A : Matrix (Fin m) (Fin n) F) (B : Matrix (Fin m) (Fin p) F) :
    Matrix (Fin m) (Fin (n + p)) F :=
  fun i c => if h : c.val < n then A i ⟨c.val, h⟩
    else B i ⟨c.val - n, by omega⟩

/-- Select the entries of a vector at the columns listed in `l`
(`ymat.matrix_from_columns(J)` on a one-row matrix). -/
def selectCols (y : Fin n → F) (l : List ℕ) : Fin l.length → F :=
  fun c => if h : l.get c < n then y ⟨l.get c, h⟩ else 0

/-- The public key `pk = (G1, G2)`. -/
structure PublicKey (F : Type*) (n k : ℕ) where
  G1 : Matrix (Fin k) (Fin n) F
  G2 : Matrix (Fin n) (Fin n) F

/-- The secret key `sk = (G, M, T, Q, G0, J)`. -/
structure SecretKey (F : Type*) (n k : ℕ) where
  G : Matrix (Fin k) (Fin n) F
  M : Matrix (Fin n) (Fin n) F
  T : Matrix (Fin n) (Fin n) F
  Q : Matrix (Fin n) (Fin n) F
  G0 : Matrix (Fin n) (Fin n) F
  J : List ℕ

/-- `random_code(G)` applied to the sampled coefficient vector `v`: the
codeword `v*G` of the code generated by `G`. -/
def random_code (G : Matrix (Fin p) (Fin n) F) (v : Fin p → F) : Fin n → F :=
  v ᵥ* G

/-- The rejection-sampling loop of `random_nonsingular_matrix`, run for `fuel`
iterations over the stream `s` of sampled matrices: the source's
`while True: G = random_matrix(ring, k, n); if G.rank() == min(k,n): return G`,
with the iteration count made explicit.  `none` means the loop has not
returned within `fuel` iterations. -/
def random_nonsingular_matrix (s : ℕ → Matrix (Fin m) (Fin n) F) :
    ℕ → Option (Matrix (Fin m) (Fin n) F)
  | 0 => none
  | fuel + 1 =>
    if eRank (s 0) = min m n then some (s 0)
    else random_nonsingular_matrix (fun i => s (i + 1)) fuel

/-- `key_gen(n, k)` of the source, with the random draws explicit: `G` is the
sampled generator, `V` collects the `random_vector` coefficient rows so that
`G0 = V*G` has each row a `random_code(G)`, and `T`, `L`, `M` are the sampled
nonsingular matrices.  Returns `none` when the kernel basis `HJ` does not have
the `n - k` rows that the source's product `L*HJ` requires (this never happens
for draws meeting `random_nonsingular_matrix`'s full-rank guarantee). -/
def key_gen (n k : ℕ) (G : Matrix (Fin k) (Fin n) F) (V : Matrix (Fin n) (Fin k) F)
    (T : Matrix (Fin n) (Fin n) F) (L : Matrix (Fin n) (Fin (n - k)) F)
    (M : Matrix (Fin n) (Fin n) F) :
    Option (PublicKey F n k × SecretKey F n k) :=
  let G0 : Matrix (Fin n) (Fin n) F := V * G
  let J : List ℕ := ePivots G
  let TJ := submatrixCols T J
  let HJ := rightKernelMatrix TJᵀ
  if h : (freeCols TJᵀ).length = n - k then
    let HJ2 : Matrix (Fin (n - k)) (Fin n) F :=
      fun i c => HJ (Fin.cast h.symm i) c
    let Q := L * HJ2
    some (⟨G * M, Q * (G0 + T) * M⟩, ⟨G, M, T, Q, G0, J⟩)
  else none

/-- `enc(pk, u)` with the random error vector `e` explicit:
`ct = u*G1 + e*G2`. -/
def enc (pk : PublicKey F n k) (u : Fin k → F) (e : Fin n → F) : Fin n → F :=
  u ᵥ* pk.G1 + e ᵥ* pk.G2

/-- `dec(sk, ct)` of the source.  `none` models the host system's exceptions:
a singular `M`, `GJ` or `T` handed to `.inverse()`, or a pivot list `J` whose
size makes `GJ` non-square. -/
def dec (sk : SecretKey F n k) (ct : Fin n → F) : Option (Fin k → F) :=
  if _hM : sk.M.det = 0 then none
  else
    let y := ct ᵥ* miv sk.M
    if hJ : sk.J.length = k then
      let GJ : Matrix (Fin k) (Fin k) F :=
        fun i c => submatrixCols sk.G sk.J i (Fin.cast hJ.symm c)
      if _hGJ : GJ.det = 0 then none
      else if _hT : sk.T.det = 0 then none
      else
        let yJ : Fin k → F := fun c => selectCols y sk.J (Fin.cast hJ.symm c)
        let eQT := y - yJ ᵥ* miv GJ ᵥ* sk.G
        let eQ := eQT ᵥ* miv sk.T
        let eQG0 := eQ ᵥ* sk.G0
        let uG := y - eQG0 - eQT
        let Gsoln := rref (augmentCol (sk.G)ᵀ uG)
        some fun i : Fin k =>
          if h : i.val < n then Gsoln ⟨i.val, h⟩ ⟨k, Nat.lt_succ_self k⟩ else 0
    else none

/-- Step 1 of `attack`: `G2.rref()[:n-k, :]`, the first `n - k` rows of the
reduced row-echelon form of the public `G2`. -/
def attackG2red (n k : ℕ) (G2 : Matrix (Fin n) (Fin n) F) :
    Matrix (Fin (n - k)) (Fin n) F :=
  fun i c => rref G2 ⟨i.val, lt_of_lt_of_le i.isLt (Nat.sub_le n k)⟩ c

/-- Step 2 of `attack`: `Gmult = G1.transpose().augment(G2red.transpose())`. -/
def attackGmult (n k : ℕ) (pk : PublicKey F n k) :
    Matrix (Fin n) (Fin (k + (n - k))) F :=
  augmentMat pk.G1ᵀ (attackG2red n k pk.G2)ᵀ

/-- `attack(pk, ct)` of the source: row-reduce `G2`, keep its first `n - k`
rows, assemble `Gmult = G1ᵀ | G2reducedᵀ`, and solve
`Gmult ⬝ (u|e') = ctᵀ` by row reduction of the augmented matrix.  The first
output is `Gsoln[:k, -1]`, the second is the free block `Gsoln[:k, rank:-1]`
(its column count is packaged in a sigma type since it depends on the
computed rank). -/
def attack (n k : ℕ) (pk : PublicKey F n k) (ct : Fin n → F) :
    (Fin k → F) × Σ w : ℕ, Matrix (Fin k) (Fin w) F :=
  let Gmult := attackGmult n k pk
  let rk := eRank Gmult
  let Gsoln := rref (augmentCol Gmult ct)
  ⟨fun i => if h : i.val < n then
      Gsoln ⟨i.val, h⟩ ⟨k + (n - k), Nat.lt_succ_self _⟩ else 0,
    ⟨k + (n - k) - rk, fun i c =>
      if h : i.val < n ∧ rk + c.val < k + (n - k) + 1 then
        Gsoln ⟨i.val, h.1⟩ ⟨rk + c.val, h.2⟩ else 0⟩⟩

/-- The intermediate vector `uG` computed by `dec` (the right-hand side of the
final linear solve `transpose(G) * u = uG`), recomputed outside the failure
checks (`0` when `J` has the wrong size, where the source would have raised
earlier). -/
def decUG (sk : SecretKey F n k) (ct : Fin n → F) : Fin n → F :=
  let y := ct ᵥ* miv sk.M
  if hJ : sk.J.length = k then
    let GJ : Matrix (Fin k) (Fin k) F :=
      fun i c => submatrixCols sk.G sk.J i (Fin.cast hJ.symm c)
    let yJ : Fin k → F := fun c => selectCols y sk.J (Fin.cast hJ.symm c)
    let eQT := y - yJ ᵥ* miv GJ ᵥ* sk.G
    let eQ := eQT ᵥ* miv sk.T
    y - eQ ᵥ* sk.G0 - eQT
  else 0

/-- On the non-failing branches, `dec` returns the first `k` entries of the
last column of the row reduction of `[Gᵀ | uGᵀ]`. -/
theorem dec_eq_of_checks (sk : SecretKey F n k) (ct : Fin n → F)
    (hM : ¬ sk.M.det = 0) (hJ : sk.J.length = k)
    (hGJ : ¬ (Matrix.det (fun i c =>
      submatrixCols sk.G sk.J i (Fin.cast hJ.symm c)) = 0))
    (hT : ¬ sk.T.det = 0) :
    dec sk ct = some fun i : Fin k =>
      if h : i.val < n then
        rref (augmentCol (sk.G)ᵀ (decUG sk ct)) ⟨i.val, h⟩ ⟨k, Nat.lt_succ_self k⟩
      else 0 := by
  rw [dec, dif_neg hM, dif_pos hJ, dif_neg hGJ, dif_neg hT, decUG, dif_pos hJ]

/-- An `Option` equality from an extracted value (used to evaluate concrete
instances). -/
theorem option_eq_some_of_get {α : Type*} (o : Option α) (v : α)
    (h1 : o.isSome = true) (h2 : o.get h1 = v) : o = some v := by
  rw [← h2]
  exact (Option.some_get h1).symm

/-! ## Solving by row reduction of an augmented matrix -/

theorem augmentCol_lt (A : Matrix (Fin m) (Fin n) F) (b : Fin m → F) (i : Fin m)
    (c : Fin (n + 1)) (h : c.val < n) : augmentCol A b i c = A i ⟨c.val, h⟩ :=
  dif_pos h

theorem augmentCol_last (A : Matrix (Fin m) (Fin n) F) (b : Fin m → F) (i : Fin m) :
    augmentCol A b i ⟨n, Nat.lt_succ_self n⟩ = b i :=
  dif_neg (lt_irrefl n)

/-- A sum over `Fin N` of a function vanishing from index `t` on restricts to a
sum over `Fin t`. -/
theorem sum_fin_restrict {N t : ℕ} (ht : t ≤ N) (f : Fin N → F)
    (hzero : ∀ i : Fin N, t ≤ i.val → f i = 0) :
    ∑ i : Fin N, f i = ∑ i : Fin t, f ⟨i.val, lt_of_lt_of_le i.isLt ht⟩ := by
  classical
  set emb : Fin t → Fin N := fun i => ⟨i.val, lt_of_lt_of_le i.isLt ht⟩ with hemb
  have hinj : ∀ x ∈ Finset.univ, ∀ y ∈ Finset.univ, emb x = emb y → x = y := by
    intro x _ y _ hxy
    have h2 := congrArg Fin.val hxy
    exact Fin.ext h2
  have h1 : ∑ i ∈ Finset.univ.image emb, f i = ∑ i : Fin t, f (emb i) :=
    Finset.sum_image hinj
  have h2 : ∑ i ∈ Finset.univ.image emb, f i = ∑ i : Fin N, f i := by
    refine Finset.sum_subset (Finset.subset_univ _) ?_
    intro i _ hi
    refine hzero i ?_
    by_contra hcon
    push_neg at hcon
    exact hi (Finset.mem_image.mpr ⟨⟨i.val, hcon⟩, Finset.mem_univ _, Fin.ext rfl⟩)
  rw [← h2, h1]

/-- Row reduction of `[B | B·x]` for a full-column-rank `B` solves the system:
the first `K` entries of the last column are exactly `x`. -/
theorem rref_augmentCol_solution {N K : ℕ} (B : Matrix (Fin N) (Fin K) F)
    (hrank : eRank B = K) (x : Fin K → F) (i : Fin K) (hi : i.val < N) :
    rref (augmentCol B (B.mulVec x)) ⟨i.val, hi⟩ ⟨K, Nat.lt_succ_self K⟩ = x i := by
  classical
  set b : Fin N → F := B.mulVec x with hb
  set Baug := augmentCol B b with hBaug
  have hpre : rrefSteps Baug K = rrefSteps B K := by
    refine rrefSteps_congr Baug B K (Nat.le_succ K) (le_refl K) ?_
    intro i2 c hc hc2 hcK
    exact augmentCol_lt B b i2 ⟨c, hc⟩ hc2
  have hcolK : (fun i2 => Baug i2 ⟨K, Nat.lt_succ_self K⟩) = b := by
    funext i2
    exact augmentCol_last B b i2
  have hmv : (rrefSteps B K).E.mulVec b = (rref B).mulVec x := by
    rw [hb, Matrix.mulVec_mulVec]
    rfl
  have hmv0 : ∀ a : Fin N, eRank B ≤ a.val → (rref B).mulVec x a = 0 := by
    intro a ha
    rw [Matrix.mulVec, dotProduct]
    rw [Finset.sum_congr rfl (fun c _ => by
      rw [congrFun (rref_lowzero B a ha) c, Pi.zero_apply, zero_mul])]
    exact Finset.sum_const_zero
  have hlast : rrefSteps Baug (K + 1) = rrefSteps B K := by
    show stepCol Baug K (rrefSteps Baug K) = _
    rw [hpre]
    unfold stepCol
    rw [dif_pos (Nat.lt_succ_self K)]
    refine stepColCore_none _ _ _ ?_
    refine List.find?_eq_none.mpr ?_
    intro a _
    simp only [decide_eq_true_eq, not_and, not_not]
    intro har
    rw [hcolK, hmv]
    refine hmv0 a ?_
    have h2 : (rrefSteps B K).r = eRank B := rfl
    omega
  have hread : rref Baug ⟨i.val, hi⟩ ⟨K, Nat.lt_succ_self K⟩ =
      ((rrefSteps B K).E.mulVec b) ⟨i.val, hi⟩ := by
    show ((rrefSteps Baug (K + 1)).E * Baug) ⟨i.val, hi⟩ ⟨K, Nat.lt_succ_self K⟩ = _
    rw [hlast, Matrix.mul_apply, Matrix.mulVec, dotProduct]
    refine Finset.sum_congr rfl (fun c _ => ?_)
    rw [show Baug c ⟨K, Nat.lt_succ_self K⟩ = b c from augmentCol_last B b c]
  rw [hread, hmv, Matrix.mulVec, dotProduct]
  rw [Finset.sum_congr rfl (fun c _ => by
    rw [rref_full_col B hrank ⟨i.val, hi⟩ c])]
  rw [Finset.sum_eq_single i]
  · rw [if_pos rfl, one_mul]
  · intro c _ hc
    rw [if_neg (fun hcon => hc (Fin.ext hcon.symm)), zero_mul]
  · intro hcon
    exact absurd (Finset.mem_univ _) hcon

/-! ## Decryption correctness -/

theorem submatrixCols_apply (A : Matrix (Fin m) (Fin n) F) (l : List ℕ) (i : Fin m)
    (c : Fin l.length) (h : l.get c < n) :
    submatrixCols A l i c = A i ⟨l.get c, h⟩ :=
  dif_pos h

theorem selectCols_apply (y : Fin n → F) (l : List ℕ) (c : Fin l.length)
    (h : l.get c < n) : selectCols y l c = y ⟨l.get c, h⟩ :=
  dif_pos h

/-- Selecting columns commutes with row-vector multiplication. -/
theorem selectCols_vecMul (x : Fin p → F) (Bm : Matrix (Fin p) (Fin n) F) (l : List ℕ)
    (hl : ∀ q ∈ l, q < n) (c : Fin l.length) :
    selectCols (x ᵥ* Bm) l c = (x ᵥ* submatrixCols Bm l) c := by
  have h : l.get c < n := hl _ (List.get_mem l c.val c.isLt)
  rw [selectCols_apply _ _ _ h, Matrix.vecMul, Matrix.vecMul, dotProduct, dotProduct]
  refine Finset.sum_congr rfl (fun i _ => ?_)
  rw [submatrixCols_apply _ _ _ _ h]

theorem selectCols_add (a b : Fin n → F) (l : List ℕ) (c : Fin l.length) :
    selectCols (a + b) l c = selectCols a l c + selectCols b l c := by
  by_cases h : l.get c < n
  · rw [selectCols_apply _ _ _ h, selectCols_apply _ _ _ h, selectCols_apply _ _ _ h]
    rfl
  · rw [selectCols, dif_neg h, selectCols, dif_neg h, selectCols, dif_neg h, add_zero]

/-- The entries of `X * idRect`. -/
theorem mul_idRect_entry {K len : ℕ} (X : Matrix (Fin K) (Fin K) F) (hlen : len ≤ K)
    (i : Fin K) (c : Fin len) :
    (X * idRect F K len) i c = X i ⟨c.val, lt_of_lt_of_le c.isLt hlen⟩ := by
  rw [Matrix.mul_apply]
  rw [Finset.sum_eq_single ⟨c.val, lt_of_lt_of_le c.isLt hlen⟩]
  · rw [idRect]
    rw [if_pos rfl, mul_one]
  · intro x _ hx
    have hne : ¬ x.val = c.val := fun hcon => hx (Fin.ext hcon)
    rw [idRect, if_neg hne, mul_zero]
  · intro hcon
    exact absurd (Finset.mem_univ _) hcon

/-- For a full-row-rank matrix, the pivot-column submatrix is exactly the
inverse of the accumulated row transformation. -/
theorem pivot_submatrix_eq (G : Matrix (Fin p) (Fin n) F) (hG : eRank G = p) :
    ∃ Ei : Matrix (Fin p) (Fin p) F, Ei * rrefT G = 1 ∧ rrefT G * Ei = 1 ∧
      G = Ei * rref G ∧
      ∀ (i : Fin p) (c : Fin (ePivots G).length),
        submatrixCols G (ePivots G) i c =
          Ei i ⟨c.val, lt_of_lt_of_le c.isLt
            (le_of_eq (by rw [ePivots_length, hG]))⟩ := by
  obtain ⟨Ei, h1, h2, h3⟩ := exists_inv_rrefT G
  refine ⟨Ei, h1, h2, h3, ?_⟩
  intro i c
  have hS : submatrixCols G (ePivots G) = Ei * idRect F p (ePivots G).length := by
    calc submatrixCols G (ePivots G)
        = submatrixCols (Ei * rref G) (ePivots G) := by rw [← h3]
      _ = Ei * submatrixCols (rref G) (ePivots G) := submatrixCols_mul Ei (rref G) _
      _ = Ei * idRect F p (ePivots G).length := by rw [submatrixCols_rref_pivots]
  rw [hS]
  exact mul_idRect_entry Ei (le_of_eq (by rw [ePivots_length, hG])) i c

/-- The elimination chain inside `dec` recovers `u·G` on a well-formed
ciphertext: the trapdoor computation of the source. -/
theorem decUG_formula {n k : ℕ} (G : Matrix (Fin k) (Fin n) F)
    (V : Matrix (Fin n) (Fin k) F) (T Q G0 M : Matrix (Fin n) (Fin n) F)
    (u : Fin k → F) (e : Fin n → F)
    (hG : eRank G = k) (hT : eRank T = n) (hM : eRank M = n)
    (hG0 : G0 = V * G) (hQTJ : Q * submatrixCols T (ePivots G) = 0) :
    decUG (⟨G, M, T, Q, G0, ePivots G⟩ : SecretKey F n k)
      (u ᵥ* (G * M) + e ᵥ* (Q * (G0 + T) * M)) = u ᵥ* G := by
  have hJlen : (ePivots G).length = k := by rw [ePivots_length, hG]
  have hMu : IsUnit M.det := isUnit_det_of_eRank M hM
  have hTu : IsUnit T.det := isUnit_det_of_eRank T hT
  set ct : Fin n → F := u ᵥ* (G * M) + e ᵥ* (Q * (G0 + T) * M) with hct
  set w : Fin k → F := (e ᵥ* Q) ᵥ* V with hw
  have hcancel : ∀ {q : ℕ} (x : Fin q → F) (X : Matrix (Fin q) (Fin n) F),
      (x ᵥ* (X * M)) ᵥ* miv M = x ᵥ* X := by
    intro q x X
    rw [miv_eq_inv, Matrix.vecMul_vecMul, Matrix.mul_assoc,
      Matrix.mul_nonsing_inv M hMu, Matrix.mul_one]
  have hy : ct ᵥ* miv M = (u + w) ᵥ* G + (e ᵥ* Q) ᵥ* T := by
    rw [hct, Matrix.add_vecMul, hcancel u G, hcancel e (Q * (G0 + T)),
      ← Matrix.vecMul_vecMul e Q (G0 + T), Matrix.vecMul_add, hG0,
      ← Matrix.vecMul_vecMul (e ᵥ* Q) V G, ← hw, Matrix.add_vecMul]
    abel
  set GJ : Matrix (Fin k) (Fin k) F :=
    fun i c => submatrixCols G (ePivots G) i (Fin.cast hJlen.symm c) with hGJ
  obtain ⟨Ei, hEi1, hEi2, hEi3, hEent⟩ := pivot_submatrix_eq G hG
  have hGJEi : GJ = Ei := by
    funext i c
    show submatrixCols G (ePivots G) i (Fin.cast hJlen.symm c) = Ei i c
    rw [hEent i (Fin.cast hJlen.symm c)]
    exact congrArg (Ei i) (Fin.ext rfl)
  have hGJu : IsUnit GJ.det := by
    rw [hGJEi]
    exact Matrix.isUnit_det_of_right_inverse hEi1
  have hGJcancel : GJ * miv GJ = 1 := by
    rw [miv_eq_inv]
    exact Matrix.mul_nonsing_inv GJ hGJu
  have hyJ : (fun c : Fin k =>
      selectCols (ct ᵥ* miv M) (ePivots G) (Fin.cast hJlen.symm c)) =
      (u + w) ᵥ* GJ := by
    funext c
    rw [hy, selectCols_add,
      selectCols_vecMul _ _ _ (ePivots_lt G) _,
      selectCols_vecMul _ _ _ (ePivots_lt G) _,
      Matrix.vecMul_vecMul, hQTJ, Matrix.vecMul_zero]
    rw [Pi.zero_apply, add_zero]
    rfl
  have heQT : ct ᵥ* miv M -
      (fun c : Fin k =>
        selectCols (ct ᵥ* miv M) (ePivots G) (Fin.cast hJlen.symm c)) ᵥ* miv GJ ᵥ* G =
      (e ᵥ* Q) ᵥ* T := by
    rw [hyJ, Matrix.vecMul_vecMul (u + w) GJ (miv GJ), hGJcancel,
      Matrix.vecMul_one, hy, add_sub_cancel_left]
  have heQ : ((e ᵥ* Q) ᵥ* T) ᵥ* miv T = e ᵥ* Q := by
    rw [miv_eq_inv, Matrix.vecMul_vecMul, Matrix.mul_nonsing_inv T hTu,
      Matrix.vecMul_one]
  simp only [decUG, dif_pos hJlen]
  rw [heQT, heQ, hG0, ← Matrix.vecMul_vecMul (e ᵥ* Q) V G, ← hw, hy,
    Matrix.add_vecMul]
  abel

/-- The recast kernel block of `key_gen` annihilates `TJ`. -/
theorem castKernel_mul {q t : ℕ} (TJ : Matrix (Fin n) (Fin q) F)
    (h : (freeCols TJᵀ).length = t) (HJ2 : Matrix (Fin t) (Fin n) F)
    (hHJ2 : ∀ i c, HJ2 i c = rightKernelMatrix TJᵀ (Fin.cast h.symm i) c) :
    HJ2 * TJ = 0 := by
  funext a c
  rw [Matrix.mul_apply, Matrix.zero_apply]
  have h3 := rightKernelMatrix_mul_transpose TJᵀ
  rw [Matrix.transpose_transpose] at h3
  have h2 : (rightKernelMatrix TJᵀ * TJ) (Fin.cast h.symm a) c = 0 := by
    rw [h3, Matrix.zero_apply]
  rw [Matrix.mul_apply] at h2
  calc ∑ x, HJ2 a x * TJ x c
      = ∑ x, rightKernelMatrix TJᵀ (Fin.cast h.symm a) x * TJ x c := by
        refine Finset.sum_congr rfl fun x _ => ?_
        rw [hHJ2 a x]
    _ = 0 := h2

/-- Round-trip correctness: decryption inverts encryption for every key pair
produced by `key_gen` from full-rank draws. -/
theorem dec_enc_of_keys {n k : ℕ} {G : Matrix (Fin k) (Fin n) F}
    {V : Matrix (Fin n) (Fin k) F} {T : Matrix (Fin n) (Fin n) F}
    {L : Matrix (Fin n) (Fin (n - k)) F} {M : Matrix (Fin n) (Fin n) F}
    {pk : PublicKey F n k} {sk : SecretKey F n k}
    (hkn : k < n) (hG : eRank G = k) (hT : eRank T = n) (hM : eRank M = n)
    (hkey : key_gen n k G V T L M = some (pk, sk)) (u : Fin k → F) (e : Fin n → F) :
    dec sk (enc pk u e) = some u := by
  by_cases hlen : (freeCols (submatrixCols T (ePivots G))ᵀ).length = n - k
  case neg =>
    simp only [key_gen, dif_neg hlen] at hkey
    exact Option.noConfusion hkey
  case pos =>
    simp only [key_gen, dif_pos hlen] at hkey
    rw [Option.some.injEq, Prod.mk.injEq] at hkey
    obtain ⟨hpk, hsk⟩ := hkey
    subst hpk
    subst hsk
    have hJlen : (ePivots G).length = k := by rw [ePivots_length, hG]
    have hMne : M.det ≠ 0 := (isUnit_det_of_eRank M hM).ne_zero
    have hTne : T.det ≠ 0 := (isUnit_det_of_eRank T hT).ne_zero
    obtain ⟨Ei, hEi1, hEi2, hEi3, hEent⟩ := pivot_submatrix_eq G hG
    have hGJEi : (fun (i : Fin k) (c : Fin k) =>
        submatrixCols G (ePivots G) i (Fin.cast hJlen.symm c)) = Ei := by
      funext i c
      show submatrixCols G (ePivots G) i (Fin.cast hJlen.symm c) = Ei i c
      rw [hEent i (Fin.cast hJlen.symm c)]
      exact congrArg (Ei i) (Fin.ext rfl)
    have hGJne : ¬ (Matrix.det (fun (i : Fin k) (c : Fin k) =>
        submatrixCols G (ePivots G) i (Fin.cast hJlen.symm c)) = 0) := by
      rw [hGJEi]
      exact (Matrix.isUnit_det_of_right_inverse hEi1).ne_zero
    have hQTJ : ∀ (HJ2 : Matrix (Fin (n - k)) (Fin n) F),
        (∀ i c, HJ2 i c =
          rightKernelMatrix (submatrixCols T (ePivots G))ᵀ (Fin.cast hlen.symm i) c) →
        L * HJ2 * submatrixCols T (ePivots G) = 0 := by
      intro HJ2 hH
      rw [Matrix.mul_assoc, castKernel_mul (submatrixCols T (ePivots G)) hlen HJ2 hH,
        Matrix.mul_zero]
    rw [dec_eq_of_checks _ _ hMne hJlen hGJne hTne]
    refine congrArg some (funext fun i => ?_)
    have hi : i.val < n := lt_trans i.isLt hkn
    rw [dif_pos hi]
    simp only [enc]
    rw [decUG_formula G V T _ _ M u e hG hT hM rfl (hQTJ _ fun _ _ => rfl)]
    have hGt : eRank Gᵀ = k := by
      rw [eRank_eq_rank, Matrix.rank_transpose, ← eRank_eq_rank, hG]
    have hmv : u ᵥ* G = Gᵀ.mulVec u := (Matrix.mulVec_transpose G u).symm
    rw [hmv]
    exact rref_augmentCol_solution Gᵀ hGt u i hi

/-! ## Attack correctness -/

theorem eRank_le_width (A : Matrix (Fin m) (Fin n) F) : eRank A ≤ n := by
  rw [eRank_eq_rank]
  have h := Matrix.rank_le_card_width A
  simpa using h

theorem eRank_mul_le_left (A : Matrix (Fin m) (Fin p) F)
    (B : Matrix (Fin p) (Fin n) F) : eRank (A * B) ≤ eRank A := by
  rw [eRank_eq_rank, eRank_eq_rank]
  exact Matrix.rank_mul_le_left A B

theorem eRank_mul_le_right (A : Matrix (Fin m) (Fin p) F)
    (B : Matrix (Fin p) (Fin n) F) : eRank (A * B) ≤ eRank B := by
  rw [eRank_eq_rank, eRank_eq_rank]
  exact Matrix.rank_mul_le_right A B

/-- Concatenation of the two solution blocks `(u | e2)` of the attack. -/
def appendVec {a b : ℕ} (x : Fin a → F) (y : Fin b → F) : Fin (a + b) → F :=
  fun i => if h : i.val < a then x ⟨i.val, h⟩
    else y ⟨i.val - a, by have h2 := i.isLt; omega⟩

theorem appendVec_lt {a b : ℕ} (x : Fin a → F) (y : Fin b → F)
    (c : Fin (a + b)) (h : c.val < a) : appendVec x y c = x ⟨c.val, h⟩ :=
  dif_pos h

theorem appendVec_ge {a b : ℕ} (x : Fin a → F) (y : Fin b → F)
    (c : Fin (a + b)) (h : ¬ c.val < a) :
    appendVec x y c = y ⟨c.val - a, by have h2 := c.isLt; omega⟩ :=
  dif_neg h

theorem augmentMat_lt (A : Matrix (Fin m) (Fin n) F) (B : Matrix (Fin m) (Fin p) F)
    (r : Fin m) (c : Fin (n + p)) (h : c.val < n) :
    augmentMat A B r c = A r ⟨c.val, h⟩ :=
  dif_pos h

theorem augmentMat_ge (A : Matrix (Fin m) (Fin n) F) (B : Matrix (Fin m) (Fin p) F)
    (r : Fin m) (c : Fin (n + p)) (h : ¬ c.val < n) :
    augmentMat A B r c = B r ⟨c.val - n, by have h2 := c.isLt; omega⟩ :=
  dif_neg h

/-- `Gmult ⬝ (x | y) = G1ᵀ ⬝ x + G2ᵀ ⬝ y`: a block product splits. -/
theorem augmentMat_mulVec (A : Matrix (Fin m) (Fin n) F)
    (B : Matrix (Fin m) (Fin p) F) (x : Fin n → F) (y : Fin p → F) :
    (augmentMat A B).mulVec (appendVec x y) = A.mulVec x + B.mulVec y := by
  funext r
  rw [Pi.add_apply, Matrix.mulVec, dotProduct, Matrix.mulVec, dotProduct,
    Matrix.mulVec, dotProduct, Fin.sum_univ_add]
  congr 1
  · refine Finset.sum_congr rfl fun i _ => ?_
    have h1 : (Fin.castAdd p i).val < n := i.isLt
    rw [augmentMat_lt A B r (Fin.castAdd p i) h1,
      appendVec_lt x y (Fin.castAdd p i) h1]
    exact congrArg₂ (fun s t => s * t)
      (congrArg (A r) (Fin.ext rfl)) (congrArg x (Fin.ext rfl))
  · refine Finset.sum_congr rfl fun i _ => ?_
    have h1 : ¬ (Fin.natAdd n i).val < n := by
      show ¬ n + i.val < n
      omega
    rw [augmentMat_ge A B r (Fin.natAdd n i) h1,
      appendVec_ge x y (Fin.natAdd n i) h1]
    refine congrArg₂ (fun s t => s * t)
      (congrArg (B r) (Fin.ext ?_)) (congrArg y (Fin.ext ?_))
    · show (Fin.natAdd n i).val - n = i.val
      show n + i.val - n = i.val
      omega
    · show (Fin.natAdd n i).val - n = i.val
      show n + i.val - n = i.val
      omega

/-- When `rank G2 ≤ n - k`, any vector of the row space of `G2` is a
combination of the rows kept by `attackG2red`. -/
theorem exists_attack_error {n k : ℕ} (G2 : Matrix (Fin n) (Fin n) F)
    (e : Fin n → F) (hle : eRank G2 ≤ n - k) :
    ∃ e2 : Fin (n - k) → F, e2 ᵥ* attackG2red n k G2 = e ᵥ* G2 := by
  obtain ⟨Ei, hEi1, hEi2, hEi3⟩ := exists_inv_rrefT G2
  refine ⟨fun r => (e ᵥ* Ei) ⟨r.val, lt_of_lt_of_le r.isLt (Nat.sub_le n k)⟩, ?_⟩
  have hG2 : e ᵥ* G2 = (e ᵥ* Ei) ᵥ* rref G2 := by
    rw [Matrix.vecMul_vecMul, ← hEi3]
  rw [hG2]
  funext j
  rw [Matrix.vecMul, dotProduct, Matrix.vecMul, dotProduct]
  rw [sum_fin_restrict (Nat.sub_le n k)
    (fun r => (e ᵥ* Ei) r * rref G2 r j) (fun i hi => by
      show (e ᵥ* Ei) i * rref G2 i j = 0
      rw [congrFun (rref_lowzero G2 i (le_trans hle hi)) j, Pi.zero_apply,
        mul_zero])]
  exact Finset.sum_congr rfl fun r _ => rfl

/-- When the assembled `Gmult` has full rank, the attack recovers the
plaintext exactly and its ambiguity block has zero columns. -/
theorem attack_recovers {n k : ℕ} (pk : PublicKey F n k) (u : Fin k → F)
    (e : Fin n → F) (hkn : k < n) (hle : eRank pk.G2 ≤ n - k)
    (hrank : eRank (attackGmult n k pk) = k + (n - k)) :
    (attack n k pk (enc pk u e)).1 = u ∧
      (attack n k pk (enc pk u e)).2.1 = 0 := by
  obtain ⟨e2, he2⟩ := exists_attack_error pk.G2 e hle
  have hct : enc pk u e = (attackGmult n k pk).mulVec (appendVec u e2) := by
    rw [enc, attackGmult, augmentMat_mulVec pk.G1ᵀ (attackG2red n k pk.G2)ᵀ u e2,
      Matrix.mulVec_transpose, Matrix.mulVec_transpose, he2]
  constructor
  · funext i
    have hik : i.val < k + (n - k) := lt_of_lt_of_le i.isLt (Nat.le_add_right k (n - k))
    have hin : i.val < n := lt_trans i.isLt hkn
    show (if h : i.val < n then
        rref (augmentCol (attackGmult n k pk) (enc pk u e)) ⟨i.val, h⟩
          ⟨k + (n - k), Nat.lt_succ_self _⟩ else 0) = u i
    rw [dif_pos hin, hct]
    have hsol := rref_augmentCol_solution (attackGmult n k pk) hrank
      (appendVec u e2) ⟨i.val, hik⟩ hin
    have hui : appendVec u e2 ⟨i.val, hik⟩ = u i := by
      rw [appendVec_lt u e2 ⟨i.val, hik⟩ i.isLt]
    exact hsol.trans hui
  · show k + (n - k) - eRank (attackGmult n k pk) = 0
    rw [hrank]
    omega

/-- Ranks of the key components: `Q` and `G2` factor through the
`(n - k)`-row kernel block, so both have rank at most `n - k`. -/
theorem eRank_Q_G2_le {n k : ℕ} {G : Matrix (Fin k) (Fin n) F}
    {V : Matrix (Fin n) (Fin k) F} {T : Matrix (Fin n) (Fin n) F}
    {L : Matrix (Fin n) (Fin (n - k)) F} {M : Matrix (Fin n) (Fin n) F}
    {pk : PublicKey F n k} {sk : SecretKey F n k}
    (hkey : key_gen n k G V T L M = some (pk, sk)) :
    eRank sk.Q ≤ n - k ∧ eRank pk.G2 ≤ n - k := by
  by_cases hlen : (freeCols (submatrixCols T (ePivots G))ᵀ).length = n - k
  case neg =>
    simp only [key_gen, dif_neg hlen] at hkey
    exact Option.noConfusion hkey
  case pos =>
    simp only [key_gen, dif_pos hlen] at hkey
    rw [Option.some.injEq, Prod.mk.injEq] at hkey
    obtain ⟨hpk, hsk⟩ := hkey
    subst hpk
    subst hsk
    constructor
    · exact le_trans (eRank_mul_le_right L _) (eRank_le_dim _)
    · refine le_trans (eRank_mul_le_left _ M) ?_
      refine le_trans (eRank_mul_le_left _ _) ?_
      exact le_trans (eRank_mul_le_right L _) (eRank_le_dim _)

/-- Rows of `rref A` before the rank are nonzero: they carry a pivot `1`. -/
theorem rref_row_nonzero (A : Matrix (Fin m) (Fin n) F) (i : Fin m)
    (hi : i.val < eRank A) : rref A i ≠ 0 := by
  intro hz
  have hlen : i.val < (ePivots A).length := by rw [ePivots_length]; exact hi
  have hq : (ePivots A).get ⟨i.val, hlen⟩ < n :=
    ePivots_lt A _ (List.get_mem _ _ _)
  have h1 := rref_pivcol A ⟨i.val, hlen⟩ hq i
  rw [if_pos rfl, hz, Pi.zero_apply] at h1
  exact zero_ne_one h1

/-- `loopsForever s` states that the rejection loop of
`random_nonsingular_matrix` does not return within any number of iterations of
the stream `s`. -/
def loopsForever (s : ℕ → Matrix (Fin m) (Fin n) F) : Prop :=
  ∀ fuel, random_nonsingular_matrix s fuel = none

/-! ## Concrete instances for evaluating the development -/

def Gw : Matrix (Fin 1) (Fin 2) (ZMod 2) := !![1, 0]

def Vw : Matrix (Fin 2) (Fin 1) (ZMod 2) := !![1; 0]

def Tw : Matrix (Fin 2) (Fin 2) (ZMod 2) := 1

def Lw : Matrix (Fin 2) (Fin (2 - 1)) (ZMod 2) := !![1; 1]

def Mw : Matrix (Fin 2) (Fin 2) (ZMod 2) := 1

def uw : Fin 1 → ZMod 2 := ![1]

def ew : Fin 2 → ZMod 2 := ![1, 0]

def pkw : PublicKey (ZMod 2) 2 1 :=
  ((key_gen 2 1 Gw Vw Tw Lw Mw).get (by decide)).1

def skw : SecretKey (ZMod 2) 2 1 :=
  ((key_gen 2 1 Gw Vw Tw Lw Mw).get (by decide)).2

theorem hkeyw : key_gen 2 1 Gw Vw Tw Lw Mw = some (pkw, skw) :=
  (Option.some_get (by decide)).symm

/-- A rank-`n` matrix handed to `attack` as `pk.G2`. -/
def G2c : Matrix (Fin 2) (Fin 2) (ZMod 2) := 1

/-- A rank-`(n-k)` matrix handed to `attack` as `pk.G2`. -/
def G2r1 : Matrix (Fin 2) (Fin 2) (ZMod 2) := !![1, 0; 0, 0]

/-- A secret key for which `dec`'s final system is inconsistent on `ct4`. -/
def sk4 : SecretKey (ZMod 2) 2 1 := ⟨!![1, 0], 1, 1, 0, 1, [0]⟩

def ct4 : Fin 2 → ZMod 2 := ![1, 1]

/-! ## The claims -/

/-- C1: Round-trip correctness — for all parameters with `0 < k < n`, every
key pair `(pk, sk)` returned by `key_gen` (on draws meeting the full-rank
guarantee the rejection sampler establishes for `G`, `T`, `M`), every
plaintext `u` and every error vector `e` drawn during encryption satisfy
`dec sk (enc pk u e) = some u`. -/
theorem claim1_round_trip {n k : ℕ} {G : Matrix (Fin k) (Fin n) F}
    {V : Matrix (Fin n) (Fin k) F} {T : Matrix (Fin n) (Fin n) F}
    {L : Matrix (Fin n) (Fin (n - k)) F} {M : Matrix (Fin n) (Fin n) F}
    {pk : PublicKey F n k} {sk : SecretKey F n k}
    (hk : 0 < k) (hkn : k < n) (hG : eRank G = k) (hT : eRank T = n)
    (hM : eRank M = n) (hkey : key_gen n k G V T L M = some (pk, sk))
    (u : Fin k → F) (e : Fin n → F) :
    dec sk (enc pk u e) = some u :=
  dec_enc_of_keys hkn hG hT hM hkey u e

theorem claim1_round_trip_witness :
    dec skw (enc pkw uw ew) = some uw :=
  claim1_round_trip (by decide) (by decide) (by decide) (by decide) (by decide)
    hkeyw uw ew

/-- C2: Attack correctness in the full-rank case — for every key pair
returned by `key_gen` and every ciphertext `enc pk u e`, if the assembled
`Gmult = G1ᵀ | G2reducedᵀ` has rank `n` then the attack returns exactly `u`
and an ambiguity block with zero columns. -/
theorem claim2_attack_recovery {n k : ℕ} {G : Matrix (Fin k) (Fin n) F}
    {V : Matrix (Fin n) (Fin k) F} {T : Matrix (Fin n) (Fin n) F}
    {L : Matrix (Fin n) (Fin (n - k)) F} {M : Matrix (Fin n) (Fin n) F}
    {pk : PublicKey F n k} {sk : SecretKey F n k}
    (hkn : k < n) (hkey : key_gen n k G V T L M = some (pk, sk))
    (u : Fin k → F) (e : Fin n → F)
    (hrank : eRank (attackGmult n k pk) = n) :
    (attack n k pk (enc pk u e)).1 = u ∧
      (attack n k pk (enc pk u e)).2.1 = 0 := by
  have h1 : eRank (attackGmult n k pk) = k + (n - k) := by rw [hrank]; omega
  exact attack_recovers pk u e hkn (eRank_Q_G2_le hkey).2 h1

theorem claim2_attack_recovery_witness :
    (attack 2 1 pkw (enc pkw uw ew)).1 = uw ∧
      (attack 2 1 pkw (enc pkw uw ew)).2.1 = 0 :=
  claim2_attack_recovery (by decide) hkeyw uw ew (by decide)

/-- C3 (corrected): the matrix the attack builds from `pk.G2` is the slice of
the FIRST `n - k` rows of `rref(pk.G2)`, not "the nonzero rows"; the two
agree exactly when `rank(pk.G2) = n - k`: under that hypothesis every kept
row is nonzero and every nonzero row of `rref(pk.G2)` is kept. -/
theorem claim3_g2red_nonzero_rows {n k : ℕ} (G2 : Matrix (Fin n) (Fin n) F)
    (hr : eRank G2 = n - k) :
    (∀ i : Fin (n - k), attackG2red n k G2 i ≠ 0) ∧
    (∀ i : Fin n, rref G2 i ≠ 0 →
      ∃ i2 : Fin (n - k), attackG2red n k G2 i2 = rref G2 i) := by
  constructor
  · intro i
    exact rref_row_nonzero G2 ⟨i.val, lt_of_lt_of_le i.isLt (Nat.sub_le n k)⟩
      (by rw [hr]; exact i.isLt)
  · intro i hnz
    have hlt : i.val < n - k := by
      by_contra hcon
      push_neg at hcon
      exact hnz (rref_lowzero G2 i (by rw [hr]; exact hcon))
    exact ⟨⟨i.val, hlt⟩, congrArg (rref G2) (Fin.ext rfl)⟩

theorem claim3_g2red_nonzero_rows_witness :
    (∀ i : Fin (2 - 1), attackG2red 2 1 G2r1 i ≠ 0) ∧
    (∀ i : Fin 2, rref G2r1 i ≠ 0 →
      ∃ i2 : Fin (2 - 1), attackG2red 2 1 G2r1 i2 = rref G2r1 i) :=
  claim3_g2red_nonzero_rows G2r1 (by decide)

/-- C3 counterexample: for a public key whose `G2` has rank `n` (here the
`2×2` identity with `k = 1`), row `1` of `rref G2` is nonzero, yet the slice
of the first `n - k` rows misses it: the slice is not the nonzero rows. -/
theorem claim3_counterexample :
    rref G2c 1 ≠ 0 ∧ ∀ i : Fin (2 - 1), attackG2red 2 1 G2c i ≠ rref G2c 1 := by
  decide

/-- C4 (corrected): when the four checks of `dec` pass (nonsingular `M`,
`GJ`, `T` and a size-`k` pivot list), `dec` always returns `some`
plaintext: the source performs no consistency check on its final solve and
never surfaces an `Inconsistent` failure, even for ciphertexts on which the
system `Gᵀ·x = uG` has no solution (see the counterexample). -/
theorem claim4_dec_total_on_checks {n k : ℕ} (sk : SecretKey F n k)
    (ct : Fin n → F) (hM : ¬ sk.M.det = 0) (hJ : sk.J.length = k)
    (hGJ : ¬ (Matrix.det (fun i c =>
      submatrixCols sk.G sk.J i (Fin.cast hJ.symm c)) = 0))
    (hT : ¬ sk.T.det = 0) :
    ∃ v : Fin k → F, dec sk ct = some v :=
  ⟨_, dec_eq_of_checks sk ct hM hJ hGJ hT⟩

theorem claim4_dec_total_on_checks_witness :
    ∃ v : Fin 1 → ZMod 2, dec sk4 ct4 = some v :=
  claim4_dec_total_on_checks sk4 ct4 (by decide) (by decide) (by decide)
    (by decide)

/-- C4 counterexample: on `sk4`, `ct4` the final system `Gᵀ·x = uG` has no
solution at all, yet `dec` returns the plaintext `![0]` instead of an
explicit failure. -/
theorem claim4_counterexample :
    (¬ ∃ x : Fin 1 → ZMod 2, (Matrix.transpose sk4.G).mulVec x = decUG sk4 ct4) ∧
      dec sk4 ct4 = some ![0] := by
  constructor
  · decide
  · exact option_eq_some_of_get _ _ (by decide) (by decide)

/-- C5 (corrected): the rejection sampler returns within `fuel` iterations
iff one of the first `fuel` samples has full rank.  The source's `while True`
loop has no retry bound and no `GenerationFailed`: on a stream with no
full-rank sample it never returns (see the counterexample). -/
theorem claim5_sampler_termination_iff (s : ℕ → Matrix (Fin m) (Fin n) F)
    (fuel : ℕ) :
    (random_nonsingular_matrix s fuel).isSome = true ↔
      ∃ i, i < fuel ∧ eRank (s i) = min m n := by
  induction fuel generalizing s with
  | zero =>
    constructor
    · intro h
      exact absurd h (by simp [random_nonsingular_matrix])
    · rintro ⟨i, hi, _⟩
      exact absurd hi (Nat.not_lt_zero i)
  | succ f ih =>
    by_cases h0 : eRank (s 0) = min m n
    · constructor
      · intro _
        exact ⟨0, Nat.succ_pos f, h0⟩
      · intro _
        show (if eRank (s 0) = min m n then some (s 0)
          else random_nonsingular_matrix (fun i => s (i + 1)) f).isSome = true
        rw [if_pos h0]
        rfl
    · have hstep : random_nonsingular_matrix s (f + 1) =
          random_nonsingular_matrix (fun i => s (i + 1)) f := by
        show (if eRank (s 0) = min m n then some (s 0)
          else random_nonsingular_matrix (fun i => s (i + 1)) f) = _
        rw [if_neg h0]
      rw [hstep, ih]
      constructor
      · rintro ⟨i, hi, hr⟩
        exact ⟨i + 1, by omega, hr⟩
      · rintro ⟨i, hi, hr⟩
        cases i with
        | zero => exact absurd hr h0
        | succ j => exact ⟨j, by omega, hr⟩

/-- C5 counterexample: on the all-zero sample stream the rejection loop of
`random_nonsingular_matrix` returns within no number of iterations — it
loops forever rather than surfacing a bounded-retry failure. -/
theorem claim5_counterexample :
    loopsForever (fun _ => (0 : Matrix (Fin 1) (Fin 1) (ZMod 2))) := by
  intro fuel
  induction fuel with
  | zero => rfl
  | succ f ih =>
    show (if eRank (0 : Matrix (Fin 1) (Fin 1) (ZMod 2)) = min 1 1
      then some 0 else random_nonsingular_matrix (fun _ => 0) f) = none
    rw [if_neg (by decide)]
    exact ih

/-- C6: Pivot invertibility — a full-row-rank `p×n` matrix `G` has a pivot
list `J` of size `p`, and the submatrix of `G` formed by the columns in `J`
is invertible (a two-sided inverse exists). -/
theorem claim6_pivot_invertibility (G : Matrix (Fin p) (Fin n) F)
    (hG : eRank G = p) :
    (ePivots G).length = p ∧
      ∃ B : Matrix (Fin (ePivots G).length) (Fin p) F,
        submatrixCols G (ePivots G) * B = 1 ∧
          B * submatrixCols G (ePivots G) = 1 :=
  ⟨by rw [ePivots_length, hG], pivot_submatrix_invertible G hG⟩

theorem claim6_pivot_invertibility_witness :
    (ePivots Gw).length = 1 ∧
      ∃ B : Matrix (Fin (ePivots Gw).length) (Fin 1) (ZMod 2),
        HMul.hMul (submatrixCols Gw (ePivots Gw)) B =
            (1 : Matrix (Fin 1) (Fin 1) (ZMod 2)) ∧
          HMul.hMul B (submatrixCols Gw (ePivots Gw)) =
            (1 : Matrix (Fin (ePivots Gw).length) (Fin (ePivots Gw).length)
              (ZMod 2)) :=
  claim6_pivot_invertibility Gw (by decide)

/-- C7: Attack structural rank bound — for every key pair returned by
`key_gen`, `rank Q ≤ n - k`, and consequently
`rank(pk.G2) = rank(Q·(G0+T)·M) ≤ n - k`. -/
theorem claim7_rank_bounds {n k : ℕ} {G : Matrix (Fin k) (Fin n) F}
    {V : Matrix (Fin n) (Fin k) F} {T : Matrix (Fin n) (Fin n) F}
    {L : Matrix (Fin n) (Fin (n - k)) F} {M : Matrix (Fin n) (Fin n) F}
    {pk : PublicKey F n k} {sk : SecretKey F n k}
    (hkey : key_gen n k G V T L M = some (pk, sk)) :
    eRank sk.Q ≤ n - k ∧ eRank pk.G2 ≤ n - k :=
  eRank_Q_G2_le hkey

theorem claim7_rank_bounds_witness :
    eRank skw.Q ≤ 2 - 1 ∧ eRank pkw.G2 ≤ 2 - 1 :=
  claim7_rank_bounds hkeyw

/-- C8: Kernel correctness — for every `m×n` matrix `A`, every row of the
right-kernel basis matrix is annihilated by `A`, the basis has exactly
`n - rank A` rows, and those rows are linearly independent. -/
theorem claim8_kernel_correctness (A : Matrix (Fin m) (Fin n) F) :
    (∀ a, A.mulVec (rightKernelMatrix A a) = 0) ∧
      (freeCols A).length = n - A.rank ∧
      LinearIndependent F (fun a => rightKernelMatrix A a) :=
  ⟨kernel_mulVec A, by rw [freeCols_length, eRank_eq_rank],
    rightKernelMatrix_linearIndependent A⟩

/-- C9: Rank monotonicity under multiplication — for compatible matrices,
`rank (A * B) ≤ min (rank A) (rank B)`. -/
theorem claim9_rank_mul_le_min (A : Matrix (Fin m) (Fin p) F)
    (B : Matrix (Fin p) (Fin n) F) :
    eRank (A * B) ≤ min (eRank A) (eRank B) :=
  le_min (eRank_mul_le_left A B) (eRank_mul_le_right A B)

/-- C10: Decryption does not depend on the `Q` component of the secret key:
two secret keys differing only in `Q` decrypt every ciphertext
identically. -/
theorem claim10_dec_ignores_Q {n k : ℕ} (G : Matrix (Fin k) (Fin n) F)
    (M T Q Q2 G0 : Matrix (Fin n) (Fin n) F) (J : List ℕ) (ct : Fin n → F) :
    dec (⟨G, M, T, Q, G0, J⟩ : SecretKey F n k) ct =
      dec (⟨G, M, T, Q2, G0, J⟩ : SecretKey F n k) ct :=
  rfl

end IKK
